import Mathlib

/-!
Verification development for the `compress` repository: a Huffman-coding
file compressor.  The definitions below are a shallow embedding of the
packaged pipeline: `compress`/`compress_one_byte`/`encode` from `comp.py`,
`Node`/`HuffmanTree` from `compress/tree.py`, the bit helpers from
`compress/bitoperations.py`, Python's `heapq` routines (`heapify`,
`heappop`, `heappush`, `_siftup`, `_siftdown`) used by the tree builder,
and `decompress`/`extract_codes`/`decode` from `compress/decomp.py`.

Bytes are natural numbers below 256; bit strings (Python strings of the
characters 0 and 1) are lists of booleans, `true` standing for 1.
Python exceptions (`EmptyFile`, `KeyError`, `IndexError`, `TypeError`)
are modelled by `Option`: `none` means the call raised.
-/

namespace Huff

/-- Bit strings: Python strings over the characters 0 and 1. -/
abbrev Bits := List Bool

/-- Fuel-driven form of `natBits`; the fuel only realises the termination
measure, `natBits` below always supplies enough. -/
def natBitsF : Nat → Nat → Bits
  | 0, _ => []
  | f + 1, n => if n = 0 then [] else natBitsF f (n / 2) ++ [n % 2 == 1]

/-- Binary digits of a natural number, most significant first; empty for 0.
Mirrors Python `bin(n)[2:]` except that `bin(0)[2:] = "0"` (see `pyBin`),
and hence also `int.bit_length`. -/
def natBits (n : Nat) : Bits := natBitsF n n

/-- Python `bin(n)[2:]`: the binary digits, with `"0"` for zero. -/
def pyBin (n : Nat) : Bits :=
  if n = 0 then [false] else natBits n

/-- Python `int.bit_length`. -/
def bit_length (n : Nat) : Nat := (natBits n).length

/-- Python `str.zfill`: left-pad with zeros up to width `w`. -/
def zfill (s : Bits) (w : Nat) : Bits := List.replicate (w - s.length) false ++ s

/-- `int_to_bits` from `bitoperations.py`, with an explicit length argument. -/
def int_to_bits (n w : Nat) : Bits := zfill (pyBin n) w

/-- Python `int(s, 2)`: value of a bit string read most significant first. -/
def bitsToNat (s : Bits) : Nat := s.foldl (fun a b => 2 * a + (if b then 1 else 0)) 0

/-- Python `x.to_bytes(w, 'big')`: `w` big-endian base-256 digits. -/
def natToBytesBE : Nat → Nat → List Nat
  | _, 0 => []
  | x, w + 1 => natToBytesBE (x / 256) w ++ [x % 256]

/-- Python `int.from_bytes(bs, 'big')`. -/
def fromBytesBE (bs : List Nat) : Nat := bs.foldl (fun a b => 256 * a + b) 0

/-- `part` from `bitoperations.py`: split a string at a position. -/
def part (s : Bits) (pos : Nat) : Bits × Bits := (s.take pos, s.drop pos)

/-- `create_bytes` from `bitoperations.py`: convert the longest prefix whose
length is a multiple of 8 into bytes, returning the bytes and the leftover
bits. -/
def create_bytes (bits : Bits) : List Nat × Bits :=
  let out_length := bits.length / 8
  let outbits := bits.take (8 * out_length)
  let rest := bits.drop (8 * out_length)
  (if outbits.isEmpty then [] else natToBytesBE (bitsToNat outbits) out_length, rest)

/-- `bits_from_bytes` from `bitoperations.py`:
`bin(int.from_bytes(bs, 'big'))[2:].zfill(8 * len(bs))`. -/
def bits_from_bytes (bs : List Nat) : Bits :=
  zfill (pyBin (fromBytesBE bs)) (8 * bs.length)

/-- `default_size` from `bitoperations.py`: one mebibyte. -/
def default_size : Nat := 1048576

/-- Fuel-driven form of `chunksOf`. -/
def chunksOfF : Nat → Nat → List α → List (List α)
  | 0, _, _ => []
  | f + 1, sz, xs =>
    if xs.isEmpty ∨ sz = 0 then [] else xs.take sz :: chunksOfF f sz (xs.drop sz)

/-- The chunks yielded by `file_chunks(infile, sz)`: successive pieces of at
most `sz` bytes (`sz` is positive in every call site). -/
def chunksOf (sz : Nat) (xs : List α) : List (List α) := chunksOfF xs.length sz xs

/-- Assignment `d[k] = v` on a Python dict modelled as an insertion-ordered
association list: overwrite in place if the key is present, else append. -/
def pyDictInsert [DecidableEq κ] (d : List (κ × ν)) (k : κ) (v : ν) : List (κ × ν) :=
  if d.any (fun p => decide (p.1 = k)) then
    d.map (fun p => if p.1 = k then (k, v) else p)
  else d ++ [(k, v)]

/-- Python dict lookup `d[k]` (`none` models `KeyError`). -/
def pyDictLookup [DecidableEq κ] (d : List (κ × ν)) (k : κ) : Option ν :=
  (d.find? (fun p => decide (p.1 = k))).map (fun p => p.2)

/-- Build a Python dict from a list of key-value pairs, first to last. -/
def pyDictOfList [DecidableEq κ] (ps : List (κ × ν)) : List (κ × ν) :=
  ps.foldl (fun d p => pyDictInsert d p.1 p.2) []

/-- Fuel-driven form of `pyKeys`. -/
def pyKeysF : Nat → List Nat → List Nat
  | 0, _ => []
  | _ + 1, [] => []
  | f + 1, x :: xs => x :: pyKeysF f (xs.filter (fun y => y != x))

/-- Keys of `collections.Counter(xs)` in iteration order: first occurrence
order, each key once. -/
def pyKeys (xs : List Nat) : List Nat := pyKeysF xs.length xs

/-- Items of `collections.Counter(xs)` in iteration order, as built by the
frequency-counting pass of `compress`. -/
def counterItems (xs : List Nat) : List (Nat × Nat) :=
  (pyKeys xs).map (fun k => (k, xs.count k))

/-! ### The Huffman tree of `compress/tree.py` -/

/-- A `Node` of `tree.py`.  `byte` is the key used for ordering: the symbol
for a leaf, and `left.byte + right.byte` (integer addition: the frequency
table built by `compress` maps ints to counts) for an internal node. -/
inductive Node where
  | leaf (byte freq : Nat)
  | inner (byte freq : Nat) (left right : Node)
deriving DecidableEq

def Node.byte : Node → Nat
  | .leaf b _ => b
  | .inner b _ _ _ => b

def Node.freq : Node → Nat
  | .leaf _ f => f
  | .inner _ f _ _ => f

/-- `Node.__lt__`: Python tuple comparison of `(freq, byte)`. -/
def nodeLt (a b : Node) : Bool :=
  decide (a.freq < b.freq) || (a.freq == b.freq && decide (a.byte < b.byte))

/-- Placeholder node used to express Python list indexing totally; every
access performed by the heap routines is in bounds. -/
def dummyNode : Node := .leaf 0 0

/-- Python list read `heap[i]`. -/
def lget (heap : List Node) (i : Nat) : Node := heap.getD i dummyNode

/-- Fuel-driven form of `siftdownLoop`. -/
def siftdownLoopF : Nat → List Node → Nat → Nat → Node → List Node
  | 0, heap, _, pos, newitem => heap.set pos newitem
  | f + 1, heap, startpos, pos, newitem =>
    if startpos < pos then
      let parent := lget heap ((pos - 1) / 2)
      if nodeLt newitem parent then
        siftdownLoopF f (heap.set pos parent) startpos ((pos - 1) / 2) newitem
      else heap.set pos newitem
    else heap.set pos newitem

/-- The loop of CPython `heapq._siftdown`, with `newitem` already read. -/
def siftdownLoop (heap : List Node) (startpos pos : Nat) (newitem : Node) : List Node :=
  siftdownLoopF pos heap startpos pos newitem

/-- Child selection step inside CPython `heapq._siftup`: the right child is
taken when it exists and the left child is not smaller. -/
def pickChild (heap : List Node) (pos : Nat) : Nat :=
  if 2 * pos + 2 < heap.length ∧ nodeLt (lget heap (2 * pos + 1)) (lget heap (2 * pos + 2)) = false
  then 2 * pos + 2 else 2 * pos + 1

/-- Fuel-driven form of `siftupLoop`. -/
def siftupLoopF : Nat → List Node → Nat → List Node × Nat
  | 0, heap, pos => (heap, pos)
  | f + 1, heap, pos =>
    if 2 * pos + 1 < heap.length then
      siftupLoopF f (heap.set pos (lget heap (pickChild heap pos))) (pickChild heap pos)
    else (heap, pos)

/-- The descending loop of CPython `heapq._siftup`: move the smaller child up
along a path, returning the final hole position. -/
def siftupLoop (heap : List Node) (pos : Nat) : List Node × Nat :=
  siftupLoopF heap.length heap pos

/-- CPython `heapq._siftup`. -/
def siftup (heap : List Node) (pos : Nat) : List Node :=
  let newitem := lget heap pos
  let hp := siftupLoop heap pos
  siftdownLoop hp.1 pos hp.2 newitem

/-- The loop of CPython `heapq.heapify`: `for i in reversed(range(n//2)): _siftup(heap, i)`. -/
def heapifyFrom : List Node → Nat → List Node
  | heap, 0 => heap
  | heap, i + 1 => heapifyFrom (siftup heap i) i

/-- CPython `heapq.heapify`. -/
def heapify (heap : List Node) : List Node := heapifyFrom heap (heap.length / 2)

/-- CPython `heapq.heappop` (`none` models `IndexError` on an empty heap). -/
def heappop (heap : List Node) : Option (Node × List Node) :=
  match heap with
  | [] => none
  | _ :: _ =>
    let lastelt := lget heap (heap.length - 1)
    let rest := heap.dropLast
    if rest.isEmpty then some (lastelt, rest)
    else some (lget rest 0, siftup (rest.set 0 lastelt) 0)

/-- CPython `heapq.heappush`. -/
def heappush (heap : List Node) (item : Node) : List Node :=
  siftdownLoop (heap ++ [item]) 0 heap.length item

/-- The merge loop of `HuffmanTree.__init__`: pop two minima, push an internal
node carrying the key sum and frequency sum. -/
def buildLoop : List Node → Nat → Option (List Node)
  | heap, 0 => some heap
  | heap, k + 1 =>
    match heappop heap with
    | none => none
    | some (l, h1) =>
      match heappop h1 with
      | none => none
      | some (r, h2) =>
        buildLoop (heappush h2 (Node.inner (l.byte + r.byte) (l.freq + r.freq) l r)) k

/-- `HuffmanTree.__init__`: heapify one leaf per item, merge `len - 1` times,
and take `heap[0]` as the root. -/
def huffmanInit (fs : List (Nat × Nat)) : Option Node :=
  match buildLoop (heapify (fs.map (fun bf => Node.leaf bf.1 bf.2))) (fs.length - 1) with
  | none => none
  | some h => h.head?

/-- Result of `HuffmanTree.__traverse`: the leaf bytes appended to the header,
the tree-structure bits, the `bytes_codes` assignments in order, and the
accumulated `encoding_length`. -/
structure TravOut where
  headerAdds : List Bits
  tree_bits : Bits
  codeAdds : List (Nat × Bits)
  enc_len : Nat
deriving DecidableEq

/-- `HuffmanTree.__traverse`: pre-order sweep writing leaf bytes, shape bits
(0 descending, 1 ascending), codes, and the total encoding length. -/
def hfTraverse : Node → Bits → TravOut
  | .leaf b f, code => ⟨[int_to_bits b 8], [], [(b, code)], f * code.length⟩
  | .inner _ _ l r, code =>
    let o1 := hfTraverse l (code ++ [false])
    let o2 := hfTraverse r (code ++ [true])
    ⟨o1.headerAdds ++ o2.headerAdds,
      false :: (o1.tree_bits ++ true :: false :: (o2.tree_bits ++ [true])),
      o1.codeAdds ++ o2.codeAdds,
      o1.enc_len + o2.enc_len⟩

/-- The align length chosen by `HuffmanTree.serialize`. -/
def hfAlign (root : Node) : Nat :=
  let o := hfTraverse root []
  (8 - (o.tree_bits.length + o.enc_len) % 8) % 8

/-- `HuffmanTree.serialize`: leaf count minus one on 8 bits, the leaf bytes in
traversal order, the align run of 1 bits, then the shape bits. -/
def hfSerialize (leaves_num : Nat) (root : Node) : Bits :=
  let o := hfTraverse root []
  int_to_bits (leaves_num - 1) 8 ++ o.headerAdds.flatten
    ++ List.replicate (hfAlign root) true ++ o.tree_bits

/-- The `bytes_codes` dict populated during serialization. -/
def hfBytesCodes (root : Node) : List (Nat × Bits) :=
  pyDictOfList (hfTraverse root []).codeAdds

/-! ### The encoder of `comp.py` -/

/-- `encode` from `comp.py` (`none` models a `KeyError` on a byte without a
code; this never happens on the encoder's own inputs). -/
def encode (text : List Nat) (bytes_codes : List (Nat × Bits)) : Option Bits :=
  (text.mapM (fun x => pyDictLookup bytes_codes x)).map List.flatten

/-- `compress_one_byte` from `comp.py`: `0x00`, the symbol, then the count as
a big-endian integer on `ceil(bit_length/8)` bytes. -/
def compress_one_byte (fs : List (Nat × Nat)) : List Nat :=
  fs.foldl (fun acc bf =>
    acc ++ natToBytesBE bf.1 1 ++ natToBytesBE bf.2 ((bit_length bf.2 + 7) / 8)) [0]

/-- The chunked payload-emission loop of `compress`: encode each chunk, carry
the sub-byte residue, write whole bytes.  The residue left after the final
chunk is dropped, exactly as in the source. -/
def emitLoop (d : List (Nat × Bits)) : List (List Nat) → List Nat → Bits → Option (List Nat)
  | [], out, _ => some out
  | c :: cs, out, rest =>
    match encode c d with
    | none => none
    | some e =>
      let cb := create_bytes (rest ++ e)
      emitLoop d cs (out ++ cb.1) cb.2

/-- The body of `compress` once the frequency table `fs` is known. -/
def compressWithFreqs (fs : List (Nat × Nat)) (xs : List Nat) : Option (List Nat) :=
  if fs.length = 1 then some (compress_one_byte fs)
  else
    match huffmanInit fs with
    | none => none
    | some root =>
      let cb := create_bytes (hfSerialize fs.length root)
      emitLoop (hfBytesCodes root) (chunksOf default_size xs) cb.1 cb.2

/-- `compress` from `comp.py`.  `none` models the `EmptyFile` exception,
raised before anything is written to the output. -/
def compress (xs : List Nat) : Option (List Nat) :=
  let fs := counterItems xs
  if fs.isEmpty then none else compressWithFreqs fs xs

/-! ### The decoder of `compress/decomp.py` -/

/-- One character step of `extract_codes`: state is (codes so far, current
code, previous character).  `none` models the `IndexError` raised by
`code.pop()` on an empty list. -/
def ecStep (st : List Bits × Bits × Bool) (cur : Bool) : Option (List Bits × Bits × Bool) :=
  match st with
  | (codes, code, prev) =>
    if prev = false then
      if cur = true then
        if code.isEmpty then none else some (codes ++ [code], code.dropLast, true)
      else some (codes, code ++ [false], false)
    else if cur = false then some (codes, code ++ [true], false)
    else if code.isEmpty then none else some (codes, code.dropLast, true)

/-- `extract_codes` from `decomp.py`: recover the leaf codes, in leaf order,
from the tree-shape bits. -/
def extract_codes (tree_bits : Bits) : Option (List Bits) :=
  (tree_bits.foldlM ecStep ([], [], false)).map (fun st => st.1)

/-- One bit of `decode`: extend the current code, emit a byte on a dict hit. -/
def decodeStep (d : List (Bits × Nat)) (st : List Nat × Bits) (bit : Bool) : List Nat × Bits :=
  let code := st.2 ++ [bit]
  match pyDictLookup d code with
  | some v => (st.1 ++ [v], [])
  | none => (st.1, code)

/-- `decode` from `decomp.py`: greedy shortest-match scan, returning the
decoded bytes and the unmatched tail. -/
def decode (encoded : Bits) (codes_bytes : List (Bits × Nat)) : List Nat × Bits :=
  encoded.foldl (decodeStep codes_bytes) ([], [])

/-- Header parsing of `decompress` in the multi-symbol case (`tl` is the
input after the first byte): read the leaf bytes, read the shape bytes, strip
the align run, extract the codes, and return the code-to-byte dict, the
leftover payload bits, and the unread bytes. -/
def decompSetup (bytes_num : Nat) (tl : List Nat) :
    Option (List (Bits × Nat) × Bits × List Nat) :=
  let leaf_bytes := tl.take bytes_num
  let after := tl.drop bytes_num
  let len := (4 * bytes_num - 4 + 7) / 8 + 1
  let tree_bits := bits_from_bytes (after.take len)
  let sliced := match tree_bits.findIdx? (fun b => !b) with
    | some i => tree_bits.drop i
    | none => tree_bits.drop (tree_bits.length - 1)
  match extract_codes (sliced.take (4 * bytes_num - 4)) with
  | none => none
  | some codes =>
    some (pyDictOfList (codes.zip leaf_bytes), sliced.drop (4 * bytes_num - 4), after.drop len)

/-- The chunked decoding loop of `decompress`, carrying the unmatched bits. -/
def decompLoop (d : List (Bits × Nat)) (rest : Bits) (chunks : List (List Nat)) :
    List Nat × Bits :=
  chunks.foldl (fun st chunk =>
    let dr := decode (st.2 ++ bits_from_bytes chunk) d
    (st.1 ++ dr.1, dr.2)) ([], rest)

/-- `decompress` from `decomp.py`.  `none` models an exception: `ord` of an
empty read, or `IndexError` inside `extract_codes`. -/
def decompress (ys : List Nat) : Option (List Nat) :=
  match ys with
  | [] => none
  | b0 :: tl =>
    if b0 = 0 then
      some ((List.replicate (fromBytesBE (tl.drop 1)) (tl.take 1)).flatten)
    else
      match decompSetup (b0 + 1) tl with
      | none => none
      | some (d, restBits, rest2) =>
        let or := decompLoop d restBits (chunksOf default_size rest2)
        some (if or.2.isEmpty then or.1 else or.1 ++ (decode or.2 d).1)

/-- The end-of-stream residue of unmatched bits carried by `decompress` in the
multi-symbol case, together with the code dict: the state just before the
final `if rest:` fallback. -/
def decompressResidue (ys : List Nat) : Option (Bits × List (Bits × Nat)) :=
  match ys with
  | [] => none
  | b0 :: tl =>
    if b0 = 0 then none
    else
      match decompSetup (b0 + 1) tl with
      | none => none
      | some (d, restBits, rest2) =>
        some ((decompLoop d restBits (chunksOf default_size rest2)).2, d)

/-! ### Spec-side model of the tie-breaking rule

The specification describes the priority ordering with a secondary key that
is a byte string: a leaf's key is its single symbol, an internal node's key
is the concatenation `left.key ++ right.key`, and keys compare
lexicographically.  The following definitions follow the spec's words, to be
compared with the code's `Node`/`nodeLt`/`huffmanInit` above. -/

/-- Spec-side node: the secondary key is the list of descendant symbols. -/
inductive SNode where
  | leaf (sym freq : Nat)
  | inner (key : List Nat) (freq : Nat) (left right : SNode)
deriving DecidableEq

def SNode.key : SNode → List Nat
  | .leaf s _ => [s]
  | .inner k _ _ _ => k

def SNode.freq : SNode → Nat
  | .leaf _ f => f
  | .inner _ f _ _ => f

/-- Lexicographic comparison of byte strings, as Python compares `bytes`. -/
def bytesLexLt : List Nat → List Nat → Bool
  | _, [] => false
  | [], _ :: _ => true
  | a :: as, b :: bs => if a < b then true else if b < a then false else bytesLexLt as bs

/-- The spec's node ordering: frequency ascending, then key bytes
lexicographically. -/
def specLt (a b : SNode) : Bool :=
  decide (a.freq < b.freq) || (a.freq == b.freq && bytesLexLt a.key b.key)

/-- Extract a minimum-priority node under `specLt` (first one on ties; ties
never occur in the runs used below, all keys being distinct). -/
def extractMin : List SNode → Option (SNode × List SNode)
  | [] => none
  | [x] => some (x, [])
  | x :: xs =>
    match extractMin xs with
    | none => some (x, [])
    | some (m, rest) => if specLt m x then some (m, x :: rest) else some (x, m :: rest)

/-- Spec-side merge loop: extract the two minima `a` then `b`, insert an
internal node with key `a.key ++ b.key`. -/
def specBuildLoop : List SNode → Nat → Option (List SNode)
  | q, 0 => some q
  | q, k + 1 =>
    match extractMin q with
    | none => none
    | some (a, q1) =>
      match extractMin q1 with
      | none => none
      | some (b, q2) =>
        specBuildLoop (q2 ++ [SNode.inner (a.key ++ b.key) (a.freq + b.freq) a b]) k

/-- Spec-side tree construction from a frequency map. -/
def specHuffman (fs : List (Nat × Nat)) : Option SNode :=
  match specBuildLoop (fs.map (fun bf => SNode.leaf bf.1 bf.2)) (fs.length - 1) with
  | none => none
  | some q => q.head?

/-- Leaf symbols of a spec-side tree in pre-order. -/
def specLeaves : SNode → List Nat
  | .leaf s _ => [s]
  | .inner _ _ l r => specLeaves l ++ specLeaves r

/-- Leaf symbols of a code-side tree in pre-order. -/
def nodeLeaves : Node → List Nat
  | .leaf b _ => [b]
  | .inner _ _ l r => nodeLeaves l ++ nodeLeaves r

/-- Leaf (symbol, frequency) pairs of a code-side tree in pre-order. -/
def leafItems : Node → List (Nat × Nat)
  | .leaf b f => [(b, f)]
  | .inner _ _ l r => leafItems l ++ leafItems r

/-- Canonical `w`-bit big-endian representation; reference form used to relate
`int_to_bits`, `bits_from_bytes`, `bitsToNat` and `natToBytesBE` to each
other. -/
def fixedBits : Nat → Nat → Bits
  | _, 0 => []
  | x, w + 1 => fixedBits (x / 2) w ++ [x % 2 == 1]

/-- Well-formedness of the stored ordering key and frequency: every internal
node carries the integer sum of its children's keys and frequencies, as
`HuffmanTree.__init__` creates it. -/
def wfKey : Node → Prop
  | .leaf _ _ => True
  | .inner b f l r => b = l.byte + r.byte ∧ f = l.freq + r.freq ∧ wfKey l ∧ wfKey r

/-- The node is an internal node. -/
def isInnerNode : Node → Prop
  | .leaf _ _ => False
  | .inner _ _ _ _ => True

/-- Leaves of a tree in pre-order with the code path assigned by
`HuffmanTree.__traverse`: (symbol, frequency, path). -/
def travItems : Node → Bits → List (Nat × Nat × Bits)
  | .leaf b f, code => [(b, f, code)]
  | .inner _ _ l r, code => travItems l (code ++ [false]) ++ travItems r (code ++ [true])

/-- A carried bit buffer is good when no non-empty prefix of it matches a
code in the dict; `decode` only ever carries such buffers. -/
def goodBuf (d : List (Bits × Nat)) (b : Bits) : Prop :=
  ∀ p : Bits, p ≠ [] → p <+: b → pyDictLookup d p = none

/-- Bit image of a byte list as the concatenation of 8-bit fields. -/
def bitsOfBytes (bs : List Nat) : Bits := (bs.map (fun b => fixedBits b 8)).flatten

/-! ## Infrastructure lemmas -/

theorem natBitsF_stable : ∀ f₁ f₂ n, n ≤ f₁ → n ≤ f₂ → natBitsF f₁ n = natBitsF f₂ n := by
  intro f₁
  induction f₁ with
  | zero =>
    intro f₂ n h1 _
    have hn : n = 0 := Nat.le_zero.mp h1
    subst hn
    cases f₂ <;> simp [natBitsF]
  | succ f ih =>
    intro f₂ n h1 h2
    cases f₂ with
    | zero =>
      have hn : n = 0 := Nat.le_zero.mp h2
      subst hn
      simp [natBitsF]
    | succ f₂ =>
      simp only [natBitsF]
      by_cases hn : n = 0
      · simp [hn]
      · simp only [hn, if_false]
        rw [ih f₂ (n / 2) (by omega) (by omega)]

/-- Defining recurrence of `natBits`. -/
theorem natBits_eq (n : Nat) :
    natBits n = if n = 0 then [] else natBits (n / 2) ++ [n % 2 == 1] := by
  cases n with
  | zero => rfl
  | succ m =>
    show natBitsF (m + 1) (m + 1) = _
    simp only [natBitsF, Nat.succ_ne_zero, if_false]
    rw [natBitsF_stable m ((m + 1) / 2) ((m + 1) / 2) (by omega) (by omega)]
    rfl

theorem chunksOfF_stable : ∀ f₁ f₂ sz (xs : List α), xs.length ≤ f₁ → xs.length ≤ f₂ →
    chunksOfF f₁ sz xs = chunksOfF f₂ sz xs := by
  intro f₁
  induction f₁ with
  | zero =>
    intro f₂ sz xs h1 _
    have hx : xs = [] := List.length_eq_zero.mp (Nat.le_zero.mp h1)
    subst hx
    cases f₂ <;> rfl
  | succ f ih =>
    intro f₂ sz xs h1 h2
    cases f₂ with
    | zero =>
      have hx : xs = [] := List.length_eq_zero.mp (Nat.le_zero.mp h2)
      subst hx
      simp [chunksOfF]
    | succ f₂ =>
      simp only [chunksOfF]
      by_cases hc : xs.isEmpty = true ∨ sz = 0
      · rw [if_pos hc, if_pos hc]
      · rw [if_neg hc, if_neg hc]
        rcases not_or.mp hc with ⟨hx, hs⟩
        have hnil : xs ≠ [] := fun he => hx (by rw [he]; rfl)
        have hpos := List.length_pos.mpr hnil
        rw [ih f₂ sz (xs.drop sz) (by simp; omega) (by simp; omega)]

/-- Defining recurrence of `chunksOf`. -/
theorem chunksOf_eq (sz : Nat) (xs : List α) :
    chunksOf sz xs =
      if xs.isEmpty ∨ sz = 0 then [] else xs.take sz :: chunksOf sz (xs.drop sz) := by
  cases xs with
  | nil => simp [chunksOf, chunksOfF]
  | cons a l =>
    show chunksOfF (l.length + 1) sz (a :: l) = _
    simp only [chunksOfF]
    by_cases hs : sz = 0
    · simp [hs]
    · have hc : ¬((a :: l).isEmpty = true ∨ sz = 0) := by simp [hs]
      rw [if_neg hc, if_neg hc]
      rw [chunksOfF_stable l.length ((a :: l).drop sz).length sz ((a :: l).drop sz)
        (by simp only [List.length_drop, List.length_cons]; omega) (le_refl _)]
      rfl

theorem pyKeysF_stable : ∀ f₁ f₂ (xs : List Nat), xs.length ≤ f₁ → xs.length ≤ f₂ →
    pyKeysF f₁ xs = pyKeysF f₂ xs := by
  intro f₁
  induction f₁ with
  | zero =>
    intro f₂ xs h1 _
    have hx : xs = [] := List.length_eq_zero.mp (Nat.le_zero.mp h1)
    subst hx
    cases f₂ <;> simp [pyKeysF]
  | succ f ih =>
    intro f₂ xs h1 h2
    cases f₂ with
    | zero =>
      have hx : xs = [] := List.length_eq_zero.mp (Nat.le_zero.mp h2)
      subst hx
      simp [pyKeysF]
    | succ f₂ =>
      cases xs with
      | nil => simp [pyKeysF]
      | cons x l =>
        simp only [pyKeysF, List.cons.injEq, true_and]
        have hl := List.length_filter_le (fun y => y != x) l
        exact ih f₂ _ (by simp at h1 ⊢; omega) (by simp at h2 ⊢; omega)

theorem pyKeys_nil : pyKeys [] = [] := rfl

/-- Defining recurrence of `pyKeys`. -/
theorem pyKeys_cons (x : Nat) (xs : List Nat) :
    pyKeys (x :: xs) = x :: pyKeys (xs.filter (fun y => y != x)) := by
  show pyKeysF (xs.length + 1) (x :: xs) = _
  simp only [pyKeysF, List.cons.injEq, true_and]
  exact pyKeysF_stable xs.length _ _ (List.length_filter_le _ _) (le_refl _)

theorem siftdownLoopF_stable : ∀ f₁ f₂ heap startpos pos newitem, pos ≤ f₁ → pos ≤ f₂ →
    siftdownLoopF f₁ heap startpos pos newitem = siftdownLoopF f₂ heap startpos pos newitem := by
  intro f₁
  induction f₁ with
  | zero =>
    intro f₂ heap startpos pos newitem h1 _
    have hp : pos = 0 := Nat.le_zero.mp h1
    subst hp
    cases f₂ <;> simp [siftdownLoopF]
  | succ f ih =>
    intro f₂ heap startpos pos newitem h1 h2
    cases f₂ with
    | zero =>
      have hp : pos = 0 := Nat.le_zero.mp h2
      subst hp
      simp [siftdownLoopF]
    | succ f₂ =>
      simp only [siftdownLoopF]
      by_cases hs : startpos < pos
      · simp only [hs, if_true]
        by_cases hlt : nodeLt newitem (lget heap ((pos - 1) / 2)) = true
        · simp only [hlt, if_true]
          exact ih f₂ _ _ _ _ (by omega) (by omega)
        · simp [hlt]
      · simp [hs]

/-- Defining recurrence of `siftdownLoop`. -/
theorem siftdownLoop_eq (heap : List Node) (startpos pos : Nat) (newitem : Node) :
    siftdownLoop heap startpos pos newitem =
      if startpos < pos then
        if nodeLt newitem (lget heap ((pos - 1) / 2)) then
          siftdownLoop (heap.set pos (lget heap ((pos - 1) / 2))) startpos ((pos - 1) / 2) newitem
        else heap.set pos newitem
      else heap.set pos newitem := by
  cases pos with
  | zero => simp [siftdownLoop, siftdownLoopF]
  | succ m =>
    show siftdownLoopF (m + 1) heap startpos (m + 1) newitem = _
    simp only [siftdownLoopF, Nat.add_sub_cancel]
    by_cases hs : startpos < m + 1
    · simp only [hs, if_true]
      by_cases hlt : nodeLt newitem (lget heap (m / 2)) = true
      · simp only [hlt, if_true]
        exact siftdownLoopF_stable m (m / 2) _ _ _ _ (by omega) (le_refl _)
      · simp [hlt]
    · simp [hs]

theorem pickChild_gt (heap : List Node) (pos : Nat) : pos < pickChild heap pos := by
  unfold pickChild; split <;> omega

theorem pickChild_lt_len (heap : List Node) (pos : Nat) (h : 2 * pos + 1 < heap.length) :
    pickChild heap pos < heap.length := by
  unfold pickChild; split
  · next hc => exact hc.1
  · exact h

theorem siftupLoopF_stable : ∀ f₁ f₂ heap pos, heap.length - pos ≤ f₁ →
    heap.length - pos ≤ f₂ → siftupLoopF f₁ heap pos = siftupLoopF f₂ heap pos := by
  intro f₁
  induction f₁ with
  | zero =>
    intro f₂ heap pos h1 _
    have hp : ¬ 2 * pos + 1 < heap.length := by omega
    cases f₂ <;> simp [siftupLoopF, hp]
  | succ f ih =>
    intro f₂ heap pos h1 h2
    cases f₂ with
    | zero =>
      have hp : ¬ 2 * pos + 1 < heap.length := by omega
      simp [siftupLoopF, hp]
    | succ f₂ =>
      simp only [siftupLoopF]
      by_cases hc : 2 * pos + 1 < heap.length
      · simp only [hc, if_true]
        have hg := pickChild_gt heap pos
        have hl := pickChild_lt_len heap pos hc
        exact ih f₂ _ _ (by simp; omega) (by simp; omega)
      · simp [hc]

theorem siftupLoopF_exit (f : Nat) (heap : List Node) (pos : Nat)
    (h : ¬ 2 * pos + 1 < heap.length) : siftupLoopF f heap pos = (heap, pos) := by
  cases f <;> simp [siftupLoopF, h]

/-- Defining recurrence of `siftupLoop`. -/
theorem siftupLoop_eq (heap : List Node) (pos : Nat) :
    siftupLoop heap pos =
      if 2 * pos + 1 < heap.length then
        siftupLoop (heap.set pos (lget heap (pickChild heap pos))) (pickChild heap pos)
      else (heap, pos) := by
  by_cases hc : 2 * pos + 1 < heap.length
  · have hg := pickChild_gt heap pos
    have hl := pickChild_lt_len heap pos hc
    simp only [siftupLoop, hc, if_true]
    have hfuel : heap.length = (heap.length - 1) + 1 := by omega
    rw [hfuel]
    simp only [siftupLoopF, hc, if_true]
    exact siftupLoopF_stable (heap.length - 1) _ _ _ (by simp only [List.length_set]; omega)
      (by simp only [List.length_set]; omega)
  · simp only [siftupLoop, hc, if_false]
    exact siftupLoopF_exit _ _ _ hc

/-! ## Bit and byte algebra -/

theorem length_fixedBits (x w : Nat) : (fixedBits x w).length = w := by
  induction w generalizing x with
  | zero => rfl
  | succ w ih => simp [fixedBits, ih]

theorem fixedBits_zero (w : Nat) : fixedBits 0 w = List.replicate w false := by
  induction w with
  | zero => rfl
  | succ w ih => simp [fixedBits, ih, List.replicate_succ']

theorem fixedBits_split (k m A B : Nat) (hB : B < 2 ^ k) :
    fixedBits (A * 2 ^ k + B) (m + k) = fixedBits A m ++ fixedBits B k := by
  induction k generalizing B with
  | zero =>
    have hB0 : B = 0 := by omega
    subst hB0
    simp [fixedBits]
  | succ k ih =>
    have e1 : A * 2 ^ (k + 1) = 2 * (A * 2 ^ k) := by rw [pow_succ]; ring
    have hdiv : (A * 2 ^ (k + 1) + B) / 2 = A * 2 ^ k + B / 2 := by rw [e1]; omega
    have hmod : (A * 2 ^ (k + 1) + B) % 2 = B % 2 := by rw [e1]; omega
    show fixedBits (A * 2 ^ (k + 1) + B) ((m + k) + 1) = _
    rw [show fixedBits (A * 2 ^ (k+1) + B) ((m + k) + 1) =
      fixedBits ((A * 2 ^ (k+1) + B) / 2) (m + k) ++ [(A * 2 ^ (k+1) + B) % 2 == 1] from rfl]
    rw [hdiv, hmod, ih (B / 2) (by omega)]
    simp [fixedBits]

theorem bitsToNat_cons (b : Bool) (s : Bits) :
    bitsToNat (b :: s) = (if b then 1 else 0) * 2 ^ s.length + bitsToNat s := by
  have aux : ∀ (t : Bits) (a : Nat),
      t.foldl (fun a b => 2 * a + (if b then 1 else 0)) a =
        a * 2 ^ t.length + t.foldl (fun a b => 2 * a + (if b then 1 else 0)) 0 := by
    intro t
    induction t with
    | nil => intro a; simp
    | cons c t ih =>
      intro a
      rw [List.foldl_cons, List.foldl_cons, ih (2 * a + (if c then 1 else 0)),
        ih (2 * 0 + (if c then 1 else 0))]
      cases c <;> simp [List.length_cons, pow_succ] <;> ring
  show (b :: s).foldl _ 0 = _
  rw [List.foldl_cons, aux s (2 * 0 + (if b then 1 else 0))]
  cases b <;> simp [bitsToNat]

theorem bitsToNat_append (a b : Bits) :
    bitsToNat (a ++ b) = bitsToNat a * 2 ^ b.length + bitsToNat b := by
  induction a with
  | nil => simp [bitsToNat]
  | cons c a ih =>
    rw [List.cons_append, bitsToNat_cons, bitsToNat_cons, ih]
    cases c <;> simp [List.length_append, pow_add] <;> ring

theorem bitsToNat_lt (s : Bits) : bitsToNat s < 2 ^ s.length := by
  induction s with
  | nil => simp [bitsToNat]
  | cons b s ih =>
    rw [bitsToNat_cons]
    have : (if b then 1 else 0) ≤ 1 := by cases b <;> simp
    calc (if b then 1 else 0) * 2 ^ s.length + bitsToNat s
        ≤ 1 * 2 ^ s.length + bitsToNat s := by
          exact Nat.add_le_add_right (Nat.mul_le_mul_right _ this) _
      _ < 2 ^ (b :: s).length := by simp [List.length_cons, pow_succ]; omega

theorem fixedBits_bitsToNat (s : Bits) : fixedBits (bitsToNat s) s.length = s := by
  induction s using List.reverseRecOn with
  | nil => rfl
  | append_singleton a b ih =>
    rw [bitsToNat_append]
    have hlen : (a ++ [b]).length = a.length + 1 := by simp
    rw [hlen]
    show fixedBits _ (a.length + 1) = _
    have hval : bitsToNat a * 2 ^ ([b] : Bits).length + bitsToNat [b]
        = 2 * bitsToNat a + (if b then 1 else 0) := by
      cases b <;> simp [bitsToNat] <;> ring
    rw [hval]
    have hdiv : (2 * bitsToNat a + (if b then 1 else 0)) / 2 = bitsToNat a := by
      cases b <;> simp <;> omega
    have hmod : ((2 * bitsToNat a + (if b then 1 else 0)) % 2 == 1) = b := by
      cases b <;> simp [Nat.add_mul_mod_self_left] <;> omega
    show fixedBits ((2 * bitsToNat a + (if b then 1 else 0)) / 2) a.length ++
      [(2 * bitsToNat a + (if b then 1 else 0)) % 2 == 1] = _
    rw [hdiv, hmod, ih]

theorem bitsToNat_fixedBits (x w : Nat) (h : x < 2 ^ w) :
    bitsToNat (fixedBits x w) = x := by
  induction w generalizing x with
  | zero =>
    have : x = 0 := by simpa using h
    subst this
    rfl
  | succ w ih =>
    show bitsToNat (fixedBits (x / 2) w ++ [x % 2 == 1]) = x
    rw [bitsToNat_append, ih (x / 2) (by rw [pow_succ] at h; omega)]
    have : bitsToNat [x % 2 == 1] = x % 2 := by
      rcases Nat.mod_two_eq_zero_or_one x with h2 | h2 <;> simp [h2, bitsToNat]
    rw [this]
    simp
    omega

theorem bit_length_natBits_succ (x : Nat) (h : 0 < x) :
    bit_length x = bit_length (x / 2) + 1 := by
  unfold bit_length
  rw [natBits_eq x]
  simp [Nat.pos_iff_ne_zero.mp h]

theorem natBits_eq_fixedBits (x : Nat) : natBits x = fixedBits x (bit_length x) := by
  induction x using Nat.strong_induction_on with
  | _ x ih =>
    rcases Nat.eq_zero_or_pos x with h0 | hpos
    · subst h0; rfl
    · rw [natBits_eq x, if_neg (Nat.pos_iff_ne_zero.mp hpos),
        ih (x / 2) (by omega), bit_length_natBits_succ x hpos]
      rfl

theorem bit_length_le (x w : Nat) (h : x < 2 ^ w) : bit_length x ≤ w := by
  induction w generalizing x with
  | zero =>
    have : x = 0 := by simpa using h
    subst this
    exact Nat.le_refl 0
  | succ w ih =>
    rcases Nat.eq_zero_or_pos x with h0 | hpos
    · subst h0; exact Nat.zero_le _
    · rw [bit_length_natBits_succ x hpos]
      have := ih (x / 2) (by rw [pow_succ] at h; omega)
      omega

theorem lt_two_pow_bit_length (x : Nat) : x < 2 ^ bit_length x := by
  induction x using Nat.strong_induction_on with
  | _ x ih =>
    rcases Nat.eq_zero_or_pos x with h0 | hpos
    · subst h0; simp [bit_length, natBits]
    · rw [bit_length_natBits_succ x hpos]
      have := ih (x / 2) (by omega)
      rw [pow_succ]
      omega

theorem fixedBits_widen (x w v : Nat) (h : x < 2 ^ w) :
    fixedBits x (v + w) = List.replicate v false ++ fixedBits x w := by
  have := fixedBits_split w v 0 x h
  simpa [fixedBits_zero] using this

theorem int_to_bits_eq_fixedBits (x w : Nat) (hx : x < 2 ^ w) (hw : 1 ≤ w) :
    int_to_bits x w = fixedBits x w := by
  unfold int_to_bits zfill pyBin
  rcases Nat.eq_zero_or_pos x with h0 | hpos
  · subst h0
    rw [if_pos rfl, fixedBits_zero]
    have : (w - 1) + 1 = w := by omega
    rw [← this, List.replicate_succ']
    simp
  · rw [if_neg (Nat.pos_iff_ne_zero.mp hpos), natBits_eq_fixedBits]
    have hble := bit_length_le x w hx
    have : w = (w - bit_length x) + bit_length x := by omega
    rw [length_fixedBits]
    conv_rhs => rw [this]
    rw [fixedBits_widen x (bit_length x) (w - bit_length x) (lt_two_pow_bit_length x)]

theorem fromBytesBE_append (a b : List Nat) :
    fromBytesBE (a ++ b) = fromBytesBE a * 256 ^ b.length + fromBytesBE b := by
  have aux : ∀ (t : List Nat) (acc : Nat),
      t.foldl (fun a b => 256 * a + b) acc =
        acc * 256 ^ t.length + t.foldl (fun a b => 256 * a + b) 0 := by
    intro t
    induction t with
    | nil => intro acc; simp
    | cons c t ih =>
      intro acc
      rw [List.foldl_cons, List.foldl_cons, ih (256 * acc + c), ih (256 * 0 + c)]
      simp [List.length_cons, pow_succ]
      ring
  show (a ++ b).foldl _ 0 = _
  rw [List.foldl_append, aux b (a.foldl _ 0)]
  rfl

theorem fromBytesBE_lt (bs : List Nat) (h : ∀ b ∈ bs, b < 256) :
    fromBytesBE bs < 256 ^ bs.length := by
  induction bs with
  | nil => simp [fromBytesBE]
  | cons c t ih =>
    have hval : fromBytesBE (c :: t) = c * 256 ^ t.length + fromBytesBE t := by
      have h1 := fromBytesBE_append [c] t
      have h2 : fromBytesBE [c] = c := by simp [fromBytesBE]
      calc fromBytesBE (c :: t) = fromBytesBE ([c] ++ t) := rfl
        _ = c * 256 ^ t.length + fromBytesBE t := by rw [h1, h2]
    rw [hval]
    have hc : c < 256 := h c (List.mem_cons_self c t)
    have ht := ih (fun b hb => h b (List.mem_cons_of_mem c hb))
    calc c * 256 ^ t.length + fromBytesBE t
        < c * 256 ^ t.length + 256 ^ t.length := by omega
      _ = (c + 1) * 256 ^ t.length := by ring
      _ ≤ 256 * 256 ^ t.length := Nat.mul_le_mul_right _ (by omega)
      _ = 256 ^ (c :: t).length := by rw [List.length_cons, pow_succ]; ring

theorem pow256_eq_pow2 (k : Nat) : 256 ^ k = 2 ^ (8 * k) := by
  rw [show (256 : Nat) = 2 ^ 8 from rfl, ← pow_mul]

theorem fromBytesBE_natToBytesBE (x w : Nat) (h : x < 256 ^ w) :
    fromBytesBE (natToBytesBE x w) = x := by
  induction w generalizing x with
  | zero =>
    have : x = 0 := by simpa using h
    subst this
    rfl
  | succ w ih =>
    show fromBytesBE (natToBytesBE (x / 256) w ++ [x % 256]) = x
    rw [fromBytesBE_append, ih (x / 256) (by rw [pow_succ] at h; omega)]
    have : fromBytesBE [x % 256] = x % 256 := by simp [fromBytesBE]
    rw [this]
    simp
    omega

theorem natToBytesBE_length (x w : Nat) : (natToBytesBE x w).length = w := by
  induction w generalizing x with
  | zero => rfl
  | succ w ih => show (natToBytesBE (x / 256) w ++ [x % 256]).length = w + 1; simp [ih]

theorem natToBytesBE_lt (x w : Nat) : ∀ b ∈ natToBytesBE x w, b < 256 := by
  induction w generalizing x with
  | zero => intro b hb; simp [natToBytesBE] at hb
  | succ w ih =>
    intro b hb
    show b < 256
    rcases List.mem_append.mp hb with h1 | h1
    · exact ih (x / 256) b h1
    · simp at h1
      subst h1
      exact Nat.mod_lt _ (by omega)

theorem natToBytesBE_split (k m A B : Nat) (hB : B < 256 ^ k) :
    natToBytesBE (A * 256 ^ k + B) (m + k) = natToBytesBE A m ++ natToBytesBE B k := by
  induction k generalizing B with
  | zero =>
    have hB0 : B = 0 := by omega
    subst hB0
    simp [natToBytesBE]
  | succ k ih =>
    have e1 : A * 256 ^ (k + 1) = 256 * (A * 256 ^ k) := by rw [pow_succ]; ring
    have hdiv : (A * 256 ^ (k + 1) + B) / 256 = A * 256 ^ k + B / 256 := by rw [e1]; omega
    have hmod : (A * 256 ^ (k + 1) + B) % 256 = B % 256 := by rw [e1]; omega
    show natToBytesBE ((A * 256 ^ (k+1) + B)) ((m + k) + 1) = _
    rw [show natToBytesBE (A * 256 ^ (k+1) + B) ((m + k) + 1) =
      natToBytesBE ((A * 256 ^ (k+1) + B) / 256) (m + k) ++ [(A * 256 ^ (k+1) + B) % 256] from rfl]
    rw [hdiv, hmod, ih (B / 256) (by omega)]
    simp [natToBytesBE]

/-- Splitting the byte image of a bit string at a byte boundary. -/
theorem natToBytesBE_bits_append (a b : Bits) (m k : Nat)
    (ha : a.length = 8 * m) (hb : b.length = 8 * k) :
    natToBytesBE (bitsToNat (a ++ b)) (m + k) =
      natToBytesBE (bitsToNat a) m ++ natToBytesBE (bitsToNat b) k := by
  rw [bitsToNat_append, hb, ← pow256_eq_pow2]
  exact natToBytesBE_split k m _ _ (by rw [pow256_eq_pow2, ← hb]; exact bitsToNat_lt b)

/-- The bit image of a byte list is the concatenation of the 8-bit fields. -/
theorem fixedBits_fromBytesBE (bs : List Nat) (h : ∀ b ∈ bs, b < 256) :
    fixedBits (fromBytesBE bs) (8 * bs.length) =
      (bs.map (fun b => fixedBits b 8)).flatten := by
  induction bs with
  | nil => rfl
  | cons c t ih =>
    have hval : fromBytesBE (c :: t) = c * 2 ^ (8 * t.length) + fromBytesBE t := by
      have h1 := fromBytesBE_append [c] t
      have h2 : fromBytesBE [c] = c := by simp [fromBytesBE]
      calc fromBytesBE (c :: t) = fromBytesBE ([c] ++ t) := rfl
        _ = c * 256 ^ t.length + fromBytesBE t := by rw [h1, h2]
        _ = c * 2 ^ (8 * t.length) + fromBytesBE t := by rw [pow256_eq_pow2]
    rw [hval]
    have hlen : 8 * (c :: t).length = 8 + 8 * t.length := by simp [List.length_cons]; ring
    rw [hlen]
    have hfr : fromBytesBE t < 2 ^ (8 * t.length) := by
      rw [← pow256_eq_pow2]
      exact fromBytesBE_lt t (fun b hb => h b (List.mem_cons_of_mem c hb))
    rw [fixedBits_split (8 * t.length) 8 c (fromBytesBE t) hfr,
      ih (fun b hb => h b (List.mem_cons_of_mem c hb))]
    rfl

theorem bits_from_bytes_eq (bs : List Nat) (hne : bs ≠ []) (h : ∀ b ∈ bs, b < 256) :
    bits_from_bytes bs = (bs.map (fun b => fixedBits b 8)).flatten := by
  unfold bits_from_bytes
  have hlt : fromBytesBE bs < 2 ^ (8 * bs.length) := by
    rw [← pow256_eq_pow2]
    exact fromBytesBE_lt bs h
  have hw : 1 ≤ 8 * bs.length := by
    have := List.length_pos.mpr hne
    omega
  have : zfill (pyBin (fromBytesBE bs)) (8 * bs.length) =
      int_to_bits (fromBytesBE bs) (8 * bs.length) := rfl
  rw [this, int_to_bits_eq_fixedBits _ _ hlt hw, fixedBits_fromBytesBE bs h]

/-- Inverse direction: the byte image of a whole-byte bit string maps back to
the bit string. -/
theorem bits_from_bytes_natToBytesBE (s : Bits) (k : Nat) (hk : 1 ≤ k)
    (hs : s.length = 8 * k) :
    bits_from_bytes (natToBytesBE (bitsToNat s) k) = s := by
  unfold bits_from_bytes
  have hlt : bitsToNat s < 256 ^ k := by
    rw [pow256_eq_pow2, ← hs]
    exact bitsToNat_lt s
  rw [fromBytesBE_natToBytesBE _ _ hlt, natToBytesBE_length]
  have : zfill (pyBin (bitsToNat s)) (8 * k) = int_to_bits (bitsToNat s) (8 * k) := rfl
  rw [this, int_to_bits_eq_fixedBits _ _ (by rw [← hs]; exact bitsToNat_lt s) (by omega),
    ← hs, fixedBits_bitsToNat]

/-! ## Frequency-counting lemmas -/

theorem mem_pyKeys (xs : List Nat) (y : Nat) : y ∈ pyKeys xs ↔ y ∈ xs := by
  suffices H : ∀ n (xs : List Nat), xs.length ≤ n → ∀ y, (y ∈ pyKeys xs ↔ y ∈ xs) by
    exact H xs.length xs (le_refl _) y
  intro n
  induction n with
  | zero =>
    intro xs h y
    have hx : xs = [] := List.length_eq_zero.mp (Nat.le_zero.mp h)
    subst hx
    simp [pyKeys_nil]
  | succ n ih =>
    intro xs h y
    cases xs with
    | nil => simp [pyKeys_nil]
    | cons x l =>
      rw [pyKeys_cons]
      have hlen : (l.filter (fun y => y != x)).length ≤ n := by
        have := List.length_filter_le (fun y => y != x) l
        simp at h
        omega
      by_cases hyx : y = x
      · subst hyx; simp
      · simp only [List.mem_cons, hyx, false_or]
        rw [ih (l.filter (fun y => y != x)) hlen y, List.mem_filter]
        simp [hyx]

theorem pyKeys_nodup (xs : List Nat) : (pyKeys xs).Nodup := by
  suffices H : ∀ n (xs : List Nat), xs.length ≤ n → (pyKeys xs).Nodup by
    exact H xs.length xs (le_refl _)
  intro n
  induction n with
  | zero =>
    intro xs h
    have hx : xs = [] := List.length_eq_zero.mp (Nat.le_zero.mp h)
    subst hx
    simp [pyKeys_nil]
  | succ n ih =>
    intro xs h
    cases xs with
    | nil => simp [pyKeys_nil]
    | cons x l =>
      rw [pyKeys_cons]
      have hlen : (l.filter (fun y => y != x)).length ≤ n := by
        have := List.length_filter_le (fun y => y != x) l
        simp at h
        omega
      refine List.nodup_cons.mpr ⟨?_, ih _ hlen⟩
      rw [mem_pyKeys, List.mem_filter]
      simp

theorem count_filter_ne (l : List Nat) (x k : Nat) (h : k ≠ x) :
    (l.filter (fun y => y != x)).count k = l.count k := by
  induction l with
  | nil => rfl
  | cons a l ih =>
    by_cases hax : a = x
    · subst hax
      rw [List.filter_cons_of_neg (by simp)]
      rw [List.count_cons_of_ne (by omega)]
      exact ih
    · rw [List.filter_cons_of_pos (by simp [hax])]
      by_cases hak : a = k
      · subst hak
        rw [List.count_cons_self, List.count_cons_self, ih]
      · rw [List.count_cons_of_ne (by omega), List.count_cons_of_ne (by omega), ih]

theorem sum_map_filter_split (l : List Nat) (x : Nat) (g : Nat → Nat) :
    (l.map g).sum = l.count x * g x + ((l.filter (fun y => y != x)).map g).sum := by
  induction l with
  | nil => simp
  | cons a t iht =>
    by_cases hax : a = x
    · subst hax
      rw [List.filter_cons_of_neg (by simp)]
      simp only [List.map_cons, List.sum_cons, List.count_cons_self]
      rw [iht]
      ring
    · rw [List.filter_cons_of_pos (by simp [hax]), List.count_cons_of_ne (by omega)]
      simp only [List.map_cons, List.sum_cons]
      rw [iht]
      ring

/-- Grouping a sum over a list by its distinct values. -/
theorem sum_map_eq_counter_sum (xs : List Nat) (g : Nat → Nat) :
    (xs.map g).sum = ((pyKeys xs).map (fun k => xs.count k * g k)).sum := by
  suffices H : ∀ n (xs : List Nat), xs.length ≤ n →
      (xs.map g).sum = ((pyKeys xs).map (fun k => xs.count k * g k)).sum by
    exact H xs.length xs (le_refl _)
  intro n
  induction n with
  | zero =>
    intro xs h
    have hx : xs = [] := List.length_eq_zero.mp (Nat.le_zero.mp h)
    subst hx
    simp [pyKeys_nil]
  | succ n ih =>
    intro xs h
    cases xs with
    | nil => simp [pyKeys_nil]
    | cons x l =>
      rw [pyKeys_cons]
      have hlen : (l.filter (fun y => y != x)).length ≤ n := by
        have := List.length_filter_le (fun y => y != x) l
        simp at h
        omega
      have hsplit := sum_map_filter_split l x g
      have hcong : ((pyKeys (l.filter (fun y => y != x))).map
            (fun k => (l.filter (fun y => y != x)).count k * g k)).sum =
          ((pyKeys (l.filter (fun y => y != x))).map
            (fun k => (x :: l).count k * g k)).sum := by
        apply congrArg
        apply List.map_congr_left
        intro k hk
        rw [mem_pyKeys, List.mem_filter] at hk
        have hkx : k ≠ x := by simpa using hk.2
        rw [count_filter_ne l x k hkx, List.count_cons_of_ne (by omega)]
      simp only [List.map_cons, List.sum_cons]
      rw [hsplit, ih _ hlen, hcong, List.count_cons_self]
      ring

theorem count_pos_of_mem {xs : List Nat} {y : Nat} (h : y ∈ xs) : 0 < xs.count y :=
  List.count_pos_iff_mem.mpr h

theorem counterItems_mem (xs : List Nat) (b f : Nat) :
    (b, f) ∈ counterItems xs ↔ b ∈ xs ∧ f = xs.count b := by
  unfold counterItems
  rw [List.mem_map]
  constructor
  · rintro ⟨k, hk, he⟩
    simp only [Prod.mk.injEq] at he
    obtain ⟨rfl, rfl⟩ := he
    exact ⟨(mem_pyKeys xs k).mp hk, rfl⟩
  · rintro ⟨hb, rfl⟩
    exact ⟨b, (mem_pyKeys xs b).mpr hb, rfl⟩

theorem counterItems_isEmpty (xs : List Nat) : (counterItems xs).isEmpty ↔ xs = [] := by
  cases xs with
  | nil => simp [counterItems, pyKeys_nil]
  | cons x l =>
    simp only [counterItems, pyKeys_cons, List.map_cons, List.isEmpty_cons]
    simp

theorem counterItems_replicate (k b : Nat) (hk : 0 < k) :
    counterItems (List.replicate k b) = [(b, k)] := by
  have hkeys : pyKeys (List.replicate k b) = [b] := by
    cases k with
    | zero => omega
    | succ m =>
      rw [List.replicate_succ, pyKeys_cons]
      have : (List.replicate m b).filter (fun y => y != b) = [] := by
        apply List.filter_eq_nil.mpr
        intro a ha
        rw [List.eq_of_mem_replicate ha]
        simp
      rw [this, pyKeys_nil]
  unfold counterItems
  rw [hkeys]
  simp [List.count_replicate]

/-! ## Byte-emission lemmas -/

/-- Unconditional form of `create_bytes`: the `if` guard only avoids calling
`int` on an empty string. -/
theorem create_bytes_eq (s : Bits) :
    create_bytes s = (natToBytesBE (bitsToNat (s.take (8 * (s.length / 8)))) (s.length / 8),
      s.drop (8 * (s.length / 8))) := by
  unfold create_bytes
  by_cases he : (s.take (8 * (s.length / 8))).isEmpty
  · simp only [he, if_true]
    have hlen : (s.take (8 * (s.length / 8))).length = 0 := by
      rw [List.isEmpty_iff] at he
      simp [he]
    rw [List.length_take] at hlen
    have h0 : s.length / 8 = 0 := by omega
    rw [h0]
    rfl
  · simp [he]

theorem create_bytes_rest_length (s : Bits) :
    (create_bytes s).2.length = s.length % 8 := by
  rw [create_bytes_eq]
  simp only [List.length_drop]
  omega

theorem create_bytes_small (s : Bits) (h : s.length < 8) : create_bytes s = ([], s) := by
  rw [create_bytes_eq]
  have h0 : s.length / 8 = 0 := by omega
  rw [h0]
  simp [natToBytesBE]

theorem create_bytes_full (s : Bits) (h : s.length % 8 = 0) :
    create_bytes s = (natToBytesBE (bitsToNat s) (s.length / 8), []) := by
  rw [create_bytes_eq]
  have : 8 * (s.length / 8) = s.length := by omega
  rw [this]
  simp

/-- Composition law: emitting `s` and then `t` with the carried rest equals a
single emission of `s ++ t`. -/
theorem create_bytes_glue (s t : Bits) :
    create_bytes (s ++ t) =
      ((create_bytes s).1 ++ (create_bytes ((create_bytes s).2 ++ t)).1,
        (create_bytes ((create_bytes s).2 ++ t)).2) := by
  rw [create_bytes_eq s]
  dsimp only
  set a := s.length / 8 with ha
  set s1 := s.take (8 * a) with hs1
  set r := s.drop (8 * a) with hr
  have h8a : 8 * a ≤ s.length := by omega
  have hs1len : s1.length = 8 * a := by rw [hs1]; simp [List.length_take]; omega
  have hrlen : r.length = s.length % 8 := by rw [hr]; simp [List.length_drop]; omega
  have hsplit : s = s1 ++ r := by rw [hs1, hr]; simp
  rw [create_bytes_eq (r ++ t), create_bytes_eq (s ++ t)]
  set b := (r ++ t).length / 8 with hb
  have hab : (s ++ t).length / 8 = a + b := by
    simp only [List.length_append, hrlen] at hb ⊢
    omega
  have h8b : 8 * b ≤ r.length + t.length := by
    simp only [List.length_append] at hb
    omega
  have htake : (s ++ t).take (8 * ((s ++ t).length / 8)) = s1 ++ (r ++ t).take (8 * b) := by
    rw [hab]
    conv_lhs => rw [hsplit, List.append_assoc]
    have : 8 * (a + b) = s1.length + 8 * b := by rw [hs1len]; ring
    rw [this, List.take_append]
  have hdrop : (s ++ t).drop (8 * ((s ++ t).length / 8)) = (r ++ t).drop (8 * b) := by
    rw [hab]
    conv_lhs => rw [hsplit, List.append_assoc]
    have : 8 * (a + b) = s1.length + 8 * b := by rw [hs1len]; ring
    rw [this, List.drop_append]
  rw [htake, hdrop, hab]
  have htb : ((r ++ t).take (8 * b)).length = 8 * b := by
    simp only [List.length_take, List.length_append]
    omega
  rw [natToBytesBE_bits_append s1 ((r ++ t).take (8 * b)) a b hs1len htb]

theorem mapM_option_append (f : Nat → Option Bits) (a b : List Nat) :
    (a ++ b).mapM f =
      (a.mapM f).bind (fun xs => (b.mapM f).map (fun ys => xs ++ ys)) := by
  induction a with
  | nil =>
    rw [List.nil_append, List.mapM_nil]
    cases hb : b.mapM f <;> simp
  | cons x a ih =>
    rw [List.cons_append, List.mapM_cons, List.mapM_cons, ih]
    cases hf : f x with
    | none => simp
    | some v =>
      cases hma : a.mapM f with
      | none => simp
      | some xs =>
        cases hmb : b.mapM f with
        | none => simp
        | some ys => simp

theorem encode_append (a b : List Nat) (d : List (Nat × Bits)) (ea eb : Bits)
    (ha : encode a d = some ea) (hb : encode b d = some eb) :
    encode (a ++ b) d = some (ea ++ eb) := by
  unfold encode at *
  rw [mapM_option_append]
  cases hma : a.mapM (fun x => pyDictLookup d x) with
  | none => rw [hma] at ha; simp at ha
  | some xs =>
    cases hmb : b.mapM (fun x => pyDictLookup d x) with
    | none => rw [hmb] at hb; simp at hb
    | some ys =>
      rw [hma] at ha
      rw [hmb] at hb
      simp at ha hb
      simp [← ha, ← hb]

theorem encode_append_inv (a b : List Nat) (d : List (Nat × Bits)) (E : Bits)
    (h : encode (a ++ b) d = some E) :
    ∃ ea eb, encode a d = some ea ∧ encode b d = some eb ∧ E = ea ++ eb := by
  unfold encode at *
  rw [mapM_option_append] at h
  cases hma : a.mapM (fun x => pyDictLookup d x) with
  | none => rw [hma] at h; simp at h
  | some xs =>
    cases hmb : b.mapM (fun x => pyDictLookup d x) with
    | none => rw [hmb] at h; simp at h
    | some ys =>
      rw [hma, hmb] at h
      simp at h
      exact ⟨xs.flatten, ys.flatten, by simp, by simp, by simp [← h]⟩

theorem encode_nil (d : List (Nat × Bits)) : encode [] d = some [] := rfl

theorem flatten_chunksOf (sz : Nat) (hsz : sz ≠ 0) (xs : List α) :
    (chunksOf sz xs).flatten = xs := by
  suffices H : ∀ n (xs : List α), xs.length ≤ n → (chunksOf sz xs).flatten = xs by
    exact H xs.length xs (le_refl _)
  intro n
  induction n with
  | zero =>
    intro xs h
    have hx : xs = [] := List.length_eq_zero.mp (Nat.le_zero.mp h)
    subst hx
    rw [chunksOf_eq]
    simp
  | succ n ih =>
    intro xs h
    rw [chunksOf_eq]
    by_cases hc : xs.isEmpty = true ∨ sz = 0
    · rcases hc with hc | hc
      · rw [List.isEmpty_iff] at hc
        simp [hc]
      · exact absurd hc hsz
    · rw [if_neg hc]
      have hne : xs ≠ [] := by
        intro he
        exact hc (Or.inl (by rw [he]; rfl))
      have hlen : (xs.drop sz).length ≤ n := by
        have := List.length_pos.mpr hne
        simp only [List.length_drop]
        omega
      simp only [List.flatten_cons, ih (xs.drop sz) hlen]
      exact List.take_append_drop sz xs

theorem chunksOf_ne_nil (sz : Nat) (xs : List α) :
    ∀ c ∈ chunksOf sz xs, c ≠ [] := by
  suffices H : ∀ n (xs : List α), xs.length ≤ n → ∀ c ∈ chunksOf sz xs, c ≠ [] by
    exact H xs.length xs (le_refl _)
  intro n
  induction n with
  | zero =>
    intro xs h
    have hx : xs = [] := List.length_eq_zero.mp (Nat.le_zero.mp h)
    subst hx
    rw [chunksOf_eq]
    simp
  | succ n ih =>
    intro xs h c hc
    rw [chunksOf_eq] at hc
    by_cases hcc : xs.isEmpty = true ∨ sz = 0
    · rw [if_pos hcc] at hc; simp at hc
    · rw [if_neg hcc] at hc
      rcases not_or.mp hcc with ⟨hx, hs⟩
      have hne : xs ≠ [] := by
        intro he
        exact hx (by rw [he]; rfl)
      rcases List.mem_cons.mp hc with rfl | hmem
      · have := List.length_pos.mpr hne
        intro he
        have : (xs.take sz).length = 0 := by rw [he]; rfl
        rw [List.length_take] at this
        omega
      · have hlen : (xs.drop sz).length ≤ n := by
          have := List.length_pos.mpr hne
          simp only [List.length_drop]
          omega
        exact ih (xs.drop sz) hlen c hmem

/-- The emission loop writes the byte image of all bits fed to it, one
byte-aligned prefix at a time. -/
theorem emitLoop_spec (d : List (Nat × Bits)) :
    ∀ (chunks : List (List Nat)) (out : List Nat) (rest E : Bits),
      rest.length < 8 → encode chunks.flatten d = some E →
      emitLoop d chunks out rest = some (out ++ (create_bytes (rest ++ E)).1) := by
  intro chunks
  induction chunks with
  | nil =>
    intro out rest E hr hE
    have hE0 : E = [] := by
      simp only [List.flatten_nil] at hE
      rw [encode_nil] at hE
      exact (Option.some.injEq _ _).mp hE.symm
    subst hE0
    rw [List.append_nil]
    rw [create_bytes_small rest hr]
    simp [emitLoop]
  | cons c cs ih =>
    intro out rest E hr hE
    simp only [List.flatten_cons] at hE
    obtain ⟨e, E', he, hE', rfl⟩ := encode_append_inv c cs.flatten d E hE
    have hstep : emitLoop d (c :: cs) out rest =
        emitLoop d cs (out ++ (create_bytes (rest ++ e)).1) (create_bytes (rest ++ e)).2 := by
      rw [show emitLoop d (c :: cs) out rest =
        (match encode c d with
          | none => none
          | some e =>
            emitLoop d cs (out ++ (create_bytes (rest ++ e)).1)
              (create_bytes (rest ++ e)).2) from rfl]
      rw [he]
    have hr' : (create_bytes (rest ++ e)).2.length < 8 := by
      rw [create_bytes_rest_length]
      omega
    rw [hstep, ih (out ++ (create_bytes (rest ++ e)).1) (create_bytes (rest ++ e)).2 E' hr' hE']
    rw [← List.append_assoc rest e E', create_bytes_glue (rest ++ e) E']
    simp

/-- The multi-symbol branch of `compress`, assembled: the output is the byte
image of the serialized header followed by the encoded payload. -/
theorem compress_multi_eq (xs : List Nat) (root : Node) (E : Bits)
    (h2 : 2 ≤ (counterItems xs).length)
    (hroot : huffmanInit (counterItems xs) = some root)
    (hE : encode xs (hfBytesCodes root) = some E) :
    compress xs = some ((create_bytes (hfSerialize (counterItems xs).length root ++ E)).1) := by
  unfold compress
  have hne : ¬ (counterItems xs).isEmpty = true := by
    intro he
    rw [List.isEmpty_iff] at he
    rw [he] at h2
    simp at h2
  rw [if_neg hne]
  unfold compressWithFreqs
  rw [if_neg (by omega), hroot]
  dsimp only
  have hflat : (chunksOf default_size xs).flatten = xs :=
    flatten_chunksOf default_size (by unfold default_size; omega) xs
  have hE' : encode (chunksOf default_size xs).flatten (hfBytesCodes root) = some E := by
    rw [hflat]; exact hE
  rw [emitLoop_spec (hfBytesCodes root) (chunksOf default_size xs) _ _ E
    (by rw [create_bytes_rest_length]; omega) hE']
  rw [create_bytes_glue (hfSerialize (counterItems xs).length root) E]

/-! ## Heap permutation lemmas

The claims about the built tree need only that the heap operations permute
their contents; no ordering facts are required for them. -/

theorem lget_eq (l : List Node) (i : Nat) (h : i < l.length) : lget l i = l[i] :=
  List.getD_eq_getElem l dummyNode h

theorem set_perm (l : List Node) (i : Nat) (x : Node) (h : i < l.length) :
    (l.set i x).Perm (x :: l.eraseIdx i) := by
  rw [List.set_eq_take_append_cons_drop, if_pos h, List.eraseIdx_eq_take_drop_succ]
  exact List.perm_middle

theorem perm_lget_cons_eraseIdx (l : List Node) (i : Nat) (h : i < l.length) :
    l.Perm (lget l i :: l.eraseIdx i) := by
  conv_lhs => rw [← List.take_append_drop i l, ← List.getElem_cons_drop l i h]
  rw [List.eraseIdx_eq_take_drop_succ, lget_eq l i h]
  exact List.perm_middle

theorem lget_set_ne (l : List Node) (i j : Nat) (x : Node) (hij : i ≠ j)
    (hj : j < l.length) : lget (l.set i x) j = lget l j := by
  rw [lget_eq _ _ (by simpa using hj), lget_eq _ _ hj]
  exact List.getElem_set_ne hij _

theorem set_lget_eraseIdx_perm (l : List Node) (i j : Nat) (hij : i ≠ j)
    (hi : i < l.length) (hj : j < l.length) :
    ((l.set i (lget l j)).eraseIdx j).Perm (l.eraseIdx i) := by
  have h1 : (l.set i (lget l j)).Perm (lget l j :: l.eraseIdx i) :=
    set_perm l i (lget l j) hi
  have h2 : (l.set i (lget l j)).Perm
      (lget (l.set i (lget l j)) j :: (l.set i (lget l j)).eraseIdx j) :=
    perm_lget_cons_eraseIdx _ j (by simpa using hj)
  rw [lget_set_ne l i j _ hij hj] at h2
  exact (h2.symm.trans h1).cons_inv

/-- Replacing position `i` by the value at `j` and then overwriting position
`j` permutes to a single replacement at `i`. -/
theorem set_indirect_perm (l : List Node) (i j : Nat) (x : Node) (hij : i ≠ j)
    (hi : i < l.length) (hj : j < l.length) :
    (((l.set i (lget l j)).set j x)).Perm (l.set i x) := by
  have h1 : ((l.set i (lget l j)).set j x).Perm (x :: (l.set i (lget l j)).eraseIdx j) :=
    set_perm _ j x (by simpa using hj)
  have h2 := (set_lget_eraseIdx_perm l i j hij hi hj).cons x
  have h3 := (set_perm l i x hi).symm
  exact (h1.trans h2).trans h3

theorem siftdownLoop_perm :
    ∀ pos heap startpos (x : Node), pos < heap.length →
      (siftdownLoop heap startpos pos x).Perm (heap.set pos x) := by
  intro pos
  induction pos using Nat.strong_induction_on with
  | _ pos ih =>
    intro heap startpos x hlen
    rw [siftdownLoop_eq]
    by_cases h1 : startpos < pos
    · rw [if_pos h1]
      by_cases h2 : nodeLt x (lget heap ((pos - 1) / 2)) = true
      · rw [if_pos h2]
        have hp : (pos - 1) / 2 < pos := by omega
        have hplt : (pos - 1) / 2 < heap.length := by omega
        have hrec := ih ((pos - 1) / 2) hp (heap.set pos (lget heap ((pos - 1) / 2)))
          startpos x (by simpa using hplt)
        refine hrec.trans ?_
        exact set_indirect_perm heap pos ((pos - 1) / 2) x (by omega) hlen hplt
      · rw [if_neg h2]
    · rw [if_neg h1]

theorem siftupLoop_length (heap : List Node) (pos : Nat) :
    (siftupLoop heap pos).1.length = heap.length := by
  suffices H : ∀ n heap pos, heap.length - pos ≤ n →
      (siftupLoop heap pos).1.length = heap.length by
    exact H (heap.length - pos) heap pos (le_refl _)
  intro n
  induction n with
  | zero =>
    intro heap pos h
    rw [siftupLoop_eq, if_neg (by omega)]
  | succ n ih =>
    intro heap pos h
    rw [siftupLoop_eq]
    by_cases hc : 2 * pos + 1 < heap.length
    · rw [if_pos hc]
      have hg := pickChild_gt heap pos
      have hl := pickChild_lt_len heap pos hc
      rw [ih _ _ (by simp only [List.length_set]; omega)]
      simp
    · rw [if_neg hc]

theorem siftupLoop_pos_lt (heap : List Node) (pos : Nat) (h : pos < heap.length) :
    (siftupLoop heap pos).2 < heap.length := by
  suffices H : ∀ n heap pos, heap.length - pos ≤ n → pos < heap.length →
      (siftupLoop heap pos).2 < heap.length by
    exact H (heap.length - pos) heap pos (le_refl _) h
  intro n
  induction n with
  | zero => intro heap pos hn hp; omega
  | succ n ih =>
    intro heap pos hn hp
    rw [siftupLoop_eq]
    by_cases hc : 2 * pos + 1 < heap.length
    · rw [if_pos hc]
      have hg := pickChild_gt heap pos
      have hl := pickChild_lt_len heap pos hc
      have := ih (heap.set pos (lget heap (pickChild heap pos))) (pickChild heap pos)
        (by simp only [List.length_set]; omega) (by simpa using hl)
      simpa using this
    · rw [if_neg hc]; exact hp

theorem siftupLoop_perm (heap : List Node) (pos : Nat) (x : Node) (h : pos < heap.length) :
    ((siftupLoop heap pos).1.set (siftupLoop heap pos).2 x).Perm (heap.set pos x) := by
  suffices H : ∀ n heap pos (x : Node), heap.length - pos ≤ n → pos < heap.length →
      ((siftupLoop heap pos).1.set (siftupLoop heap pos).2 x).Perm (heap.set pos x) by
    exact H (heap.length - pos) heap pos x (le_refl _) h
  intro n
  induction n with
  | zero => intro heap pos x hn hp; omega
  | succ n ih =>
    intro heap pos x hn hp
    rw [siftupLoop_eq]
    by_cases hc : 2 * pos + 1 < heap.length
    · rw [if_pos hc]
      have hg := pickChild_gt heap pos
      have hl := pickChild_lt_len heap pos hc
      have hrec := ih (heap.set pos (lget heap (pickChild heap pos))) (pickChild heap pos) x
        (by simp only [List.length_set]; omega) (by simpa using hl)
      refine hrec.trans ?_
      exact set_indirect_perm heap pos (pickChild heap pos) x (by omega) hp hl
    · rw [if_neg hc]

theorem set_lget_self_perm (l : List Node) (i : Nat) (h : i < l.length) :
    (l.set i (lget l i)).Perm l :=
  (set_perm l i (lget l i) h).trans (perm_lget_cons_eraseIdx l i h).symm

theorem siftup_perm (heap : List Node) (pos : Nat) (h : pos < heap.length) :
    (siftup heap pos).Perm heap := by
  unfold siftup
  have h2 := siftupLoop_perm heap pos (lget heap pos) h
  have hlen := siftupLoop_length heap pos
  have hpos := siftupLoop_pos_lt heap pos h
  have h1 := siftdownLoop_perm (siftupLoop heap pos).2 (siftupLoop heap pos).1 pos
    (lget heap pos) (by omega)
  exact (h1.trans (h2.trans (set_lget_self_perm heap pos h)))

theorem siftup_length (heap : List Node) (pos : Nat) (h : pos < heap.length) :
    (siftup heap pos).length = heap.length :=
  (siftup_perm heap pos h).length_eq

theorem heapifyFrom_perm : ∀ (i : Nat) (heap : List Node), i ≤ heap.length →
    (heapifyFrom heap i).Perm heap := by
  intro i
  induction i with
  | zero => intro heap h; exact List.Perm.refl _
  | succ i ih =>
    intro heap h
    show (heapifyFrom (siftup heap i) i).Perm heap
    have hp := siftup_perm heap i (by omega)
    refine (ih (siftup heap i) ?_).trans hp
    rw [hp.length_eq]
    omega

theorem heapify_perm (heap : List Node) : (heapify heap).Perm heap :=
  heapifyFrom_perm (heap.length / 2) heap (by omega)

theorem heappop_cons (a : Node) (t : List Node) :
    heappop (a :: t) =
      if (a :: t).dropLast.isEmpty then
        some (lget (a :: t) ((a :: t).length - 1), (a :: t).dropLast)
      else
        some (lget (a :: t).dropLast 0,
          siftup ((a :: t).dropLast.set 0 (lget (a :: t) ((a :: t).length - 1))) 0) := rfl

theorem heappop_spec (heap : List Node) (hne : heap ≠ []) :
    ∃ r h', heappop heap = some (r, h') ∧ (r :: h').Perm heap ∧
      h'.length = heap.length - 1 := by
  cases heap with
  | nil => exact absurd rfl hne
  | cons a t =>
    rw [heappop_cons]
    by_cases hre : (a :: t).dropLast.isEmpty = true
    · rw [if_pos hre]
      rw [List.isEmpty_iff] at hre
      have hlen : (a :: t).dropLast.length = 0 := by rw [hre]; rfl
      rw [List.length_dropLast] at hlen
      have ht : t = [] := by
        cases t with
        | nil => rfl
        | cons b u => simp at hlen
      subst ht
      exact ⟨a, [], rfl, List.Perm.refl _, rfl⟩
    · rw [if_neg hre]
      have hdlne : (a :: t).dropLast ≠ [] := fun h0 => hre (by rw [h0]; rfl)
      have hdlpos : 0 < (a :: t).dropLast.length := List.length_pos.mpr hdlne
      have hlne : (a :: t) ≠ [] := by simp
      refine ⟨_, _, rfl, ?_, ?_⟩
      · have hlast : lget (a :: t) ((a :: t).length - 1) = (a :: t).getLast hlne := by
          rw [lget_eq _ _ (by simp), List.getLast_eq_getElem]
        have hsplit : (a :: t).dropLast ++ [(a :: t).getLast hlne] = a :: t :=
          List.dropLast_concat_getLast hlne
        have hsift : (siftup ((a :: t).dropLast.set 0 (lget (a :: t) ((a :: t).length - 1))) 0).Perm
            ((a :: t).dropLast.set 0 (lget (a :: t) ((a :: t).length - 1))) :=
          siftup_perm _ 0 (by simpa using hdlpos)
        have hset : ((a :: t).dropLast.set 0 (lget (a :: t) ((a :: t).length - 1))).Perm
            (lget (a :: t) ((a :: t).length - 1) :: (a :: t).dropLast.eraseIdx 0) :=
          set_perm _ 0 _ hdlpos
        have hgd : (a :: t).dropLast.Perm
            (lget (a :: t).dropLast 0 :: (a :: t).dropLast.eraseIdx 0) :=
          perm_lget_cons_eraseIdx _ 0 hdlpos
        have step1 : (lget (a :: t).dropLast 0 ::
            siftup ((a :: t).dropLast.set 0 (lget (a :: t) ((a :: t).length - 1))) 0).Perm
            (lget (a :: t).dropLast 0 :: lget (a :: t) ((a :: t).length - 1) ::
              (a :: t).dropLast.eraseIdx 0) :=
          (hsift.trans hset).cons _
        have step2 : (lget (a :: t).dropLast 0 :: lget (a :: t) ((a :: t).length - 1) ::
            (a :: t).dropLast.eraseIdx 0).Perm
            (lget (a :: t) ((a :: t).length - 1) :: lget (a :: t).dropLast 0 ::
              (a :: t).dropLast.eraseIdx 0) :=
          List.Perm.swap _ _ _
        have step3 : (lget (a :: t) ((a :: t).length - 1) :: lget (a :: t).dropLast 0 ::
            (a :: t).dropLast.eraseIdx 0).Perm
            (lget (a :: t) ((a :: t).length - 1) :: (a :: t).dropLast) :=
          hgd.symm.cons _
        have step4 : (lget (a :: t) ((a :: t).length - 1) :: (a :: t).dropLast).Perm (a :: t) := by
          refine ((List.perm_append_singleton _ _).symm).trans ?_
          rw [hlast, hsplit]
        exact ((step1.trans step2).trans step3).trans step4
      · rw [siftup_length _ 0 (by simpa using hdlpos)]
        simp

theorem heappush_perm (heap : List Node) (item : Node) :
    (heappush heap item).Perm (heap ++ [item]) := by
  unfold heappush
  have h := siftdownLoop_perm heap.length (heap ++ [item]) 0 item (by simp)
  refine h.trans ?_
  have hset : (heap ++ [item]).set heap.length item = heap ++ [item] := by
    rw [List.set_eq_take_append_cons_drop, if_pos (by simp)]
    have h1 : (heap ++ [item]).take heap.length = heap := by
      have := @List.take_append _ heap [item] 0
      simpa using this
    have h2 : (heap ++ [item]).drop (heap.length + 1) = [] := by
      have := @List.drop_append _ heap [item] 1
      simpa using this
    rw [h1, h2]
  rw [hset]

theorem flatMap_leafItems_map_leaf (fs : List (Nat × Nat)) :
    (fs.map (fun bf => Node.leaf bf.1 bf.2)).flatMap leafItems = fs := by
  induction fs with
  | nil => rfl
  | cons p t ih => simp [leafItems, ih]

/-- The merge loop reduces the heap to one node whose leaves are exactly the
initial items (as a multiset); the node stores sum keys and, as soon as one
merge happened, is internal. -/
theorem buildLoop_spec : ∀ (k : Nat) (heap : List Node), heap.length = k + 1 →
    ∃ n, buildLoop heap k = some [n] ∧
      (leafItems n).Perm (heap.flatMap leafItems) ∧
      ((∀ m ∈ heap, wfKey m) → wfKey n) ∧
      (1 ≤ k → isInnerNode n) := by
  intro k
  induction k with
  | zero =>
    intro heap hlen
    match heap, hlen with
    | [x], _ =>
      exact ⟨x, rfl, by simp, fun h => h x (by simp), by omega⟩
  | succ k ih =>
    intro heap hlen
    have hne : heap ≠ [] := by
      intro h0
      rw [h0] at hlen
      simp at hlen
    obtain ⟨l, h1, hpop1, hperm1, hlen1⟩ := heappop_spec heap hne
    have h1ne : h1 ≠ [] := by
      intro h0
      rw [h0] at hlen1
      simp at hlen1
      omega
    obtain ⟨r, h2, hpop2, hperm2, hlen2⟩ := heappop_spec h1 h1ne
    have hstep : buildLoop heap (k + 1) =
        buildLoop (heappush h2 (Node.inner (l.byte + r.byte) (l.freq + r.freq) l r)) k := by
      simp only [buildLoop, hpop1, hpop2]
    have hpushlen :
        (heappush h2 (Node.inner (l.byte + r.byte) (l.freq + r.freq) l r)).length = k + 1 := by
      rw [(heappush_perm h2 _).length_eq]
      rw [hlen] at hlen1
      simp
      omega
    obtain ⟨n, hbl, hlperm, hwf, hinner⟩ := ih _ hpushlen
    have hpushperm := heappush_perm h2 (Node.inner (l.byte + r.byte) (l.freq + r.freq) l r)
    have hsub2 : ∀ m ∈ h2, m ∈ heap := by
      intro m hm
      have hm1 : m ∈ h1 := hperm2.mem_iff.mp (List.mem_cons_of_mem r hm)
      exact hperm1.mem_iff.mp (List.mem_cons_of_mem l hm1)
    have hlmem : l ∈ heap := hperm1.mem_iff.mp (List.mem_cons_self l h1)
    have hrmem : r ∈ heap :=
      hperm1.mem_iff.mp (List.mem_cons_of_mem l (hperm2.mem_iff.mp (List.mem_cons_self r h2)))
    refine ⟨n, by rw [hstep]; exact hbl, ?_, ?_, fun _ => ?_⟩
    · refine hlperm.trans ?_
      have e1 := List.Perm.flatMap_right leafItems hpushperm
      refine e1.trans ?_
      have e2 : (h2 ++ [Node.inner (l.byte + r.byte) (l.freq + r.freq) l r]).flatMap leafItems
          = h2.flatMap leafItems ++ (leafItems l ++ leafItems r) := by
        rw [List.flatMap_append]
        simp [leafItems]
      rw [e2]
      have e3 : (h2.flatMap leafItems ++ (leafItems l ++ leafItems r)).Perm
          ((leafItems l ++ leafItems r) ++ h2.flatMap leafItems) := List.perm_append_comm
      refine e3.trans ?_
      rw [List.append_assoc]
      have e4 : (leafItems r ++ h2.flatMap leafItems).Perm ((r :: h2).flatMap leafItems) := by
        simp
      have e5 : ((r :: h2).flatMap leafItems).Perm (h1.flatMap leafItems) :=
        List.Perm.flatMap_right leafItems hperm2
      have e6 : (leafItems l ++ h1.flatMap leafItems).Perm ((l :: h1).flatMap leafItems) := by
        simp
      have e7 : ((l :: h1).flatMap leafItems).Perm (heap.flatMap leafItems) :=
        List.Perm.flatMap_right leafItems hperm1
      refine (List.Perm.append_left (leafItems l) (e4.trans e5)).trans (e6.trans e7)
    · intro hw
      apply hwf
      intro m hm
      rcases List.mem_append.mp (hpushperm.mem_iff.mp hm) with hm2 | hmn
      · exact hw m (hsub2 m hm2)
      · have : m = Node.inner (l.byte + r.byte) (l.freq + r.freq) l r := by simpa using hmn
        subst this
        exact ⟨rfl, rfl, hw l hlmem, hw r hrmem⟩
    · cases k with
      | zero =>
        have h20 : h2 = [] := List.length_eq_zero.mp (by omega)
        subst h20
        have : heappush [] (Node.inner (l.byte + r.byte) (l.freq + r.freq) l r) =
            [Node.inner (l.byte + r.byte) (l.freq + r.freq) l r] := rfl
        rw [this] at hbl
        have : n = Node.inner (l.byte + r.byte) (l.freq + r.freq) l r := by
          have hbl' : some [Node.inner (l.byte + r.byte) (l.freq + r.freq) l r] = some [n] := by
            rw [← hbl]
            rfl
          simp at hbl'
          exact hbl'.symm
        rw [this]
        trivial
      | succ k => exact hinner (by omega)

/-- `HuffmanTree.__init__` on a non-empty frequency table: the root's leaves
are exactly the items, keys are well-formed sums, and with at least two items
the root is internal. -/
theorem huffmanInit_spec (fs : List (Nat × Nat)) (h : 1 ≤ fs.length) :
    ∃ root, huffmanInit fs = some root ∧ (leafItems root).Perm fs ∧ wfKey root ∧
      (2 ≤ fs.length → isInnerNode root) := by
  have hlen : (heapify (fs.map (fun bf => Node.leaf bf.1 bf.2))).length
      = (fs.length - 1) + 1 := by
    rw [(heapify_perm _).length_eq]
    simp
    omega
  obtain ⟨n, hbl, hperm, hwf, hin⟩ := buildLoop_spec (fs.length - 1) _ hlen
  refine ⟨n, ?_, ?_, ?_, ?_⟩
  · unfold huffmanInit
    rw [hbl]
    rfl
  · refine hperm.trans ?_
    refine (List.Perm.flatMap_right leafItems (heapify_perm _)).trans ?_
    rw [flatMap_leafItems_map_leaf]
  · apply hwf
    intro m hm
    have hm' := (heapify_perm _).mem_iff.mp hm
    obtain ⟨p, _, rfl⟩ := List.mem_map.mp hm'
    trivial
  · intro h2
    exact hin (by omega)

/-! ## Traversal structure lemmas -/

theorem travItems_leafItems (t : Node) (code : Bits) :
    (travItems t code).map (fun x => (x.1, x.2.1)) = leafItems t := by
  induction t generalizing code with
  | leaf b f => rfl
  | inner b f l r ihl ihr =>
    simp only [travItems, leafItems, List.map_append, ihl, ihr]

theorem travItems_codeAdds (t : Node) (code : Bits) :
    (hfTraverse t code).codeAdds = (travItems t code).map (fun x => (x.1, x.2.2)) := by
  induction t generalizing code with
  | leaf b f => rfl
  | inner b f l r ihl ihr =>
    show (hfTraverse l (code ++ [false])).codeAdds ++ (hfTraverse r (code ++ [true])).codeAdds = _
    rw [ihl, ihr]
    simp [travItems]

theorem travItems_headerAdds (t : Node) (code : Bits) :
    (hfTraverse t code).headerAdds = (travItems t code).map (fun x => int_to_bits x.1 8) := by
  induction t generalizing code with
  | leaf b f => rfl
  | inner b f l r ihl ihr =>
    show (hfTraverse l (code ++ [false])).headerAdds ++ (hfTraverse r (code ++ [true])).headerAdds = _
    rw [ihl, ihr]
    simp [travItems]

theorem travItems_enc_len (t : Node) (code : Bits) :
    (hfTraverse t code).enc_len = ((travItems t code).map (fun x => x.2.1 * x.2.2.length)).sum := by
  induction t generalizing code with
  | leaf b f => simp [hfTraverse, travItems]
  | inner b f l r ihl ihr =>
    show (hfTraverse l (code ++ [false])).enc_len + (hfTraverse r (code ++ [true])).enc_len = _
    rw [ihl, ihr]
    simp [travItems]

theorem leafItems_length_pos (t : Node) : 1 ≤ (leafItems t).length := by
  induction t with
  | leaf b f => simp [leafItems]
  | inner b f l r ihl ihr =>
    show 1 ≤ (leafItems l ++ leafItems r).length
    simp only [List.length_append]
    omega

theorem tree_bits_length (t : Node) (code : Bits) :
    (hfTraverse t code).tree_bits.length = 4 * (leafItems t).length - 4 := by
  induction t generalizing code with
  | leaf b f => rfl
  | inner b f l r ihl ihr =>
    show (false :: ((hfTraverse l (code ++ [false])).tree_bits ++ true :: false ::
      ((hfTraverse r (code ++ [true])).tree_bits ++ [true]))).length = _
    have h1 := leafItems_length_pos l
    have h2 := leafItems_length_pos r
    simp [ihl, ihr, leafItems]
    omega

theorem travItems_path_mem (t : Node) (code : Bits) :
    ∀ x ∈ travItems t code, ∃ suffix, x.2.2 = code ++ suffix := by
  induction t generalizing code with
  | leaf b f =>
    intro x hx
    simp [travItems] at hx
    subst hx
    exact ⟨[], by simp⟩
  | inner b f l r ihl ihr =>
    intro x hx
    rcases List.mem_append.mp hx with h | h
    · obtain ⟨s, hs⟩ := ihl (code ++ [false]) x h
      exact ⟨false :: s, by rw [hs]; simp⟩
    · obtain ⟨s, hs⟩ := ihr (code ++ [true]) x h
      exact ⟨true :: s, by rw [hs]; simp⟩

theorem cross_not_pfx (code s₁ s₂ : Bits) (b₁ b₂ : Bool) (hne : b₁ ≠ b₂) :
    ¬ (code ++ b₁ :: s₁ <+: code ++ b₂ :: s₂) := by
  intro h
  rw [List.prefix_append_right_inj] at h
  rcases List.cons_prefix_cons.mp h with ⟨he, _⟩
  exact hne he

/-- The code paths assigned by the traversal are pairwise non-prefixes of one
another. -/
theorem travItems_pairwise (t : Node) (code : Bits) :
    (travItems t code).Pairwise (fun a b => ¬ a.2.2 <+: b.2.2 ∧ ¬ b.2.2 <+: a.2.2) := by
  induction t generalizing code with
  | leaf b f => simp [travItems]
  | inner b f l r ihl ihr =>
    show ((travItems l (code ++ [false])) ++ (travItems r (code ++ [true]))).Pairwise _
    rw [List.pairwise_append]
    refine ⟨ihl _, ihr _, ?_⟩
    intro a ha b hb
    obtain ⟨s₁, hs₁⟩ := travItems_path_mem l (code ++ [false]) a ha
    obtain ⟨s₂, hs₂⟩ := travItems_path_mem r (code ++ [true]) b hb
    rw [hs₁, hs₂]
    rw [List.append_assoc, List.append_assoc]
    constructor
    · exact cross_not_pfx code (s₁) (s₂) false true (by simp)
    · exact cross_not_pfx code (s₂) (s₁) true false (by simp)

theorem travItems_path_nonempty (b f : Nat) (l r : Node) :
    ∀ x ∈ travItems (Node.inner b f l r) [], x.2.2 ≠ [] := by
  intro x hx
  rcases List.mem_append.mp hx with h | h
  · obtain ⟨s, hs⟩ := travItems_path_mem l [false] x h
    rw [hs]
    simp
  · obtain ⟨s, hs⟩ := travItems_path_mem r [true] x h
    rw [hs]
    simp

/-! ## Python dict lemmas -/

theorem pyDictInsert_not_mem [DecidableEq κ] (d : List (κ × ν)) (k : κ) (v : ν)
    (h : ∀ p ∈ d, p.1 ≠ k) : pyDictInsert d k v = d ++ [(k, v)] := by
  unfold pyDictInsert
  have hc : d.any (fun p => decide (p.1 = k)) = false := by
    rw [List.any_eq_false]
    intro p hp
    simpa using h p hp
  rw [hc]
  simp

theorem pyDictOfList_nodup [DecidableEq κ] (ps : List (κ × ν))
    (h : (ps.map Prod.fst).Nodup) : pyDictOfList ps = ps := by
  suffices H : ∀ (d ps : List (κ × ν)), ((d ++ ps).map Prod.fst).Nodup →
      ps.foldl (fun d p => pyDictInsert d p.1 p.2) d = d ++ ps by
    have := H [] ps (by simpa using h)
    simpa [pyDictOfList] using this
  intro d ps
  induction ps generalizing d with
  | nil => intro _; simp
  | cons p t ih =>
    intro hnd
    show t.foldl _ (pyDictInsert d p.1 p.2) = d ++ p :: t
    have hins : pyDictInsert d p.1 p.2 = d ++ [p] := by
      have hins0 : pyDictInsert d p.1 p.2 = d ++ [(p.1, p.2)] := by
        refine pyDictInsert_not_mem d p.1 p.2 ?_
        intro q hq he
        rw [List.map_append, List.nodup_append] at hnd
        have hdisj := hnd.2.2
        have hq1 : q.1 ∈ d.map Prod.fst := List.mem_map_of_mem Prod.fst hq
        have hnotin := hdisj hq1
        apply hnotin
        rw [he]
        simp
      simpa using hins0
    rw [hins, ih (d ++ [p]) (by simpa using hnd)]
    simp

theorem pyDictLookup_cons [DecidableEq κ] (p : κ × ν) (d : List (κ × ν)) (k : κ) :
    pyDictLookup (p :: d) k = if p.1 = k then some p.2 else pyDictLookup d k := by
  unfold pyDictLookup
  by_cases h : p.1 = k
  · rw [List.find?_cons_of_pos _ (by simpa using h), if_pos h]
    rfl
  · rw [List.find?_cons_of_neg _ (by simpa using h), if_neg h]

theorem pyDictLookup_of_mem [DecidableEq κ] (d : List (κ × ν)) (k : κ) (v : ν)
    (hmem : (k, v) ∈ d) (hnd : (d.map Prod.fst).Nodup) :
    pyDictLookup d k = some v := by
  induction d with
  | nil => simp at hmem
  | cons p t ih =>
    rw [pyDictLookup_cons]
    rcases List.mem_cons.mp hmem with rfl | hm
    · simp
    · rw [List.map_cons, List.nodup_cons] at hnd
      have hpk : p.1 ≠ k := by
        intro he
        exact hnd.1 (he ▸ List.mem_map_of_mem Prod.fst hm)
      rw [if_neg hpk]
      exact ih hm hnd.2

theorem pyDictLookup_eq_none [DecidableEq κ] (d : List (κ × ν)) (k : κ)
    (h : ∀ p ∈ d, p.1 ≠ k) : pyDictLookup d k = none := by
  induction d with
  | nil => rfl
  | cons p t ih =>
    rw [pyDictLookup_cons, if_neg (h p (List.mem_cons_self p t))]
    exact ih (fun q hq => h q (List.mem_cons_of_mem p hq))

/-! ## Encoder assembly -/

theorem mapM_eq_map (f : Nat → Option Bits) (g : Nat → Bits) :
    ∀ (text : List Nat), (∀ x ∈ text, f x = some (g x)) → text.mapM f = some (text.map g) := by
  intro text
  induction text with
  | nil => intro _; rfl
  | cons x t ih =>
    intro h
    rw [List.mapM_cons, h x (List.mem_cons_self x t), ih (fun y hy => h y (List.mem_cons_of_mem x hy))]
    rfl

theorem encode_some (text : List Nat) (d : List (Nat × Bits))
    (h : ∀ x ∈ text, ∃ c, pyDictLookup d x = some c) :
    encode text d = some ((text.map (fun b => (pyDictLookup d b).getD [])).flatten) := by
  unfold encode
  rw [mapM_eq_map (fun x => pyDictLookup d x) (fun b => (pyDictLookup d b).getD [])]
  · rfl
  · intro x hx
    obtain ⟨c, hc⟩ := h x hx
    rw [hc]
    rfl

theorem lookup_ne_none_of_mem_keys [DecidableEq κ] (d : List (κ × ν)) (k : κ)
    (h : k ∈ d.map Prod.fst) : ∃ v, pyDictLookup d k = some v := by
  induction d with
  | nil => simp at h
  | cons p t ih =>
    rw [pyDictLookup_cons]
    by_cases hp : p.1 = k
    · rw [if_pos hp]; exact ⟨p.2, rfl⟩
    · rw [if_neg hp]
      rw [List.map_cons, List.mem_cons] at h
      rcases h with he | hm
      · exact absurd he.symm hp
      · exact ih hm

theorem hfAlign_eq (root : Node) :
    hfAlign root = (8 - ((hfTraverse root []).tree_bits.length
      + (hfTraverse root []).enc_len) % 8) % 8 := rfl

/-- Central structure theorem for the multi-symbol branch of the encoder. -/
theorem compress_structure (xs : List Nat) (hbytes : ∀ x ∈ xs, x < 256)
    (h2 : 2 ≤ (counterItems xs).length) :
    ∃ root E,
      huffmanInit (counterItems xs) = some root ∧
      (leafItems root).Perm (counterItems xs) ∧ wfKey root ∧ isInnerNode root ∧
      hfBytesCodes root = (travItems root []).map (fun x => (x.1, x.2.2)) ∧
      ((travItems root []).map Prod.fst).Nodup ∧
      encode xs (hfBytesCodes root) = some E ∧
      E.length = (hfTraverse root []).enc_len ∧
      compress xs = some ((create_bytes (hfSerialize (counterItems xs).length root ++ E)).1) ∧
      (hfSerialize (counterItems xs).length root).length =
        8 + 8 * (counterItems xs).length + hfAlign root
          + (4 * (counterItems xs).length - 4) ∧
      (hfSerialize (counterItems xs).length root ++ E).length % 8 = 0 := by
  obtain ⟨root, hinit, hperm, hwf, hinner⟩ := huffmanInit_spec (counterItems xs) (by omega)
  have hroot_inner := hinner h2
  set fs := counterItems xs with hfs
  set items := travItems root [] with hitems
  have hL : (leafItems root).length = fs.length := hperm.length_eq
  have hitems_len : items.length = (leafItems root).length := by
    rw [← travItems_leafItems root []]
    simp [hitems]
  have hkeys_eq : items.map Prod.fst = (leafItems root).map Prod.fst := by
    rw [← travItems_leafItems root []]
    simp [hitems]
  have hkeys_perm : (items.map Prod.fst).Perm (fs.map Prod.fst) := by
    rw [hkeys_eq]
    exact hperm.map Prod.fst
  have hfs_keys : fs.map Prod.fst = pyKeys xs := by
    rw [hfs]
    unfold counterItems
    rw [List.map_map]
    have he : (Prod.fst ∘ fun k => (k, xs.count k)) = fun k => k := rfl
    rw [he]
    exact List.map_id _
  have hkeys_nodup : (items.map Prod.fst).Nodup := by
    refine hkeys_perm.nodup_iff.mpr ?_
    rw [hfs_keys]
    exact pyKeys_nodup xs
  have hdict : hfBytesCodes root = items.map (fun x => (x.1, x.2.2)) := by
    unfold hfBytesCodes
    rw [travItems_codeAdds]
    refine pyDictOfList_nodup _ ?_
    have : (items.map (fun x => (x.1, x.2.2))).map Prod.fst = items.map Prod.fst := by
      simp
    rw [this]
    exact hkeys_nodup
  have hmem_keys : ∀ x ∈ xs, x ∈ (hfBytesCodes root).map Prod.fst := by
    intro x hx
    rw [hdict]
    have : (items.map (fun x => (x.1, x.2.2))).map Prod.fst = items.map Prod.fst := by simp
    rw [this, hkeys_perm.mem_iff, hfs_keys]
    exact (mem_pyKeys xs x).mpr hx
  have hlookup : ∀ x ∈ xs, ∃ c, pyDictLookup (hfBytesCodes root) x = some c :=
    fun x hx => lookup_ne_none_of_mem_keys _ x (hmem_keys x hx)
  set g : Nat → Bits := fun b => (pyDictLookup (hfBytesCodes root) b).getD [] with hg
  have hE : encode xs (hfBytesCodes root) = some ((xs.map g).flatten) :=
    encode_some xs (hfBytesCodes root) hlookup
  -- each item's own code is found by lookup
  have hitem_lookup : ∀ x ∈ items, pyDictLookup (hfBytesCodes root) x.1 = some x.2.2 := by
    intro x hx
    rw [hdict]
    refine pyDictLookup_of_mem _ _ _ ?_ ?_
    · exact List.mem_map.mpr ⟨x, hx, rfl⟩
    · have : (items.map (fun x => (x.1, x.2.2))).map Prod.fst = items.map Prod.fst := by simp
      rw [this]
      exact hkeys_nodup
  -- length of the encoded payload equals enc_len
  have hElen : ((xs.map g).flatten).length = (hfTraverse root []).enc_len := by
    rw [List.length_flatten, travItems_enc_len]
    have h1 : (xs.map g).map List.length = xs.map (fun b => (g b).length) := by
      rw [List.map_map]
      rfl
    rw [h1, sum_map_eq_counter_sum xs (fun b => (g b).length)]
    -- items side: each item contributes freq * its own path length
    have h3 : (items.map (fun x => x.2.1 * x.2.2.length))
        = (items.map (fun x => (x.1, x.2.1))).map (fun bf => bf.2 * (g bf.1).length) := by
      rw [List.map_map]
      refine List.map_congr_left ?_
      intro x hx
      have := hitem_lookup x hx
      show x.2.1 * x.2.2.length = x.2.1 * (g x.1).length
      rw [hg]
      simp only [this]
      rfl
    rw [h3, travItems_leafItems]
    have h4 := (hperm.map (fun bf => bf.2 * (g bf.1).length)).sum_eq
    rw [h4]
    -- fs side: pointwise equal to the counter sum
    rw [hfs, counterItems, List.map_map]
    apply congrArg
    refine List.map_congr_left ?_
    intro k _
    show xs.count k * (g k).length = xs.count k * (g k).length
    rfl
  have hkeys_lt : ∀ b ∈ fs.map Prod.fst, b < 256 := by
    intro b hb
    rw [hfs_keys] at hb
    exact hbytes b ((mem_pyKeys xs b).mp hb)
  have hL256 : fs.length ≤ 256 := by
    have hnd : (fs.map Prod.fst).Nodup := by
      rw [hfs_keys]
      exact pyKeys_nodup xs
    have h1 : (fs.map Prod.fst).toFinset.card = (fs.map Prod.fst).length :=
      List.toFinset_card_of_nodup hnd
    have h2 : (fs.map Prod.fst).toFinset ⊆ Finset.range 256 := by
      intro x hx
      rw [List.mem_toFinset] at hx
      simpa using hkeys_lt x hx
    have h3 := Finset.card_le_card h2
    rw [h1, Finset.card_range, List.length_map] at h3
    exact h3
  have hitem_lt : ∀ x ∈ items, x.1 < 256 := by
    intro x hx
    have : x.1 ∈ items.map Prod.fst := List.mem_map_of_mem Prod.fst hx
    rw [hkeys_perm.mem_iff] at this
    exact hkeys_lt x.1 this
  have hheader_len : (hfTraverse root []).headerAdds.flatten.length = 8 * fs.length := by
    rw [travItems_headerAdds, List.length_flatten, List.map_map]
    have hall : ∀ x ∈ items, ((fun x => int_to_bits x.1 8) x).length = 8 := by
      intro x hx
      show (int_to_bits x.1 8).length = 8
      rw [int_to_bits_eq_fixedBits _ 8 (by have := hitem_lt x hx; omega) (by omega),
        length_fixedBits]
    rw [List.map_congr_left (fun x hx => by
      show (List.length ∘ fun x => int_to_bits x.1 8) x = (fun _ => 8) x
      simp only [Function.comp]
      exact hall x hx)]
    rw [List.map_const']
    rw [List.sum_replicate]
    rw [hitems_len, hL]
    simp [Nat.mul_comm]
  have hser_len : (hfSerialize fs.length root).length =
      8 + 8 * fs.length + hfAlign root + (4 * fs.length - 4) := by
    unfold hfSerialize
    simp only [List.length_append, List.length_replicate]
    have hN : (int_to_bits (fs.length - 1) 8).length = 8 := by
      rw [int_to_bits_eq_fixedBits _ 8 (by omega) (by omega), length_fixedBits]
    rw [hN, hheader_len, tree_bits_length, hL]
  refine ⟨root, (xs.map g).flatten, hinit, hperm, hwf, hroot_inner, hdict, hkeys_nodup,
    hE, hElen, ?_, hser_len, ?_⟩
  · exact compress_multi_eq xs root _ h2 hinit hE
  · rw [List.length_append, hser_len, hElen, hfAlign_eq, tree_bits_length root, hL]
    set M := (hfTraverse root []).enc_len with hM
    omega

/-! ## One-symbol case -/

theorem flatten_replicate_singleton (n b : Nat) :
    (List.replicate n ([b] : List Nat)).flatten = List.replicate n b := by
  induction n with
  | zero => rfl
  | succ n ih => simp [List.replicate_succ, ih]

theorem compress_one_byte_single (b k : Nat) (hb : b < 256) :
    compress_one_byte [(b, k)] = 0 :: b :: natToBytesBE k ((bit_length k + 7) / 8) := by
  unfold compress_one_byte
  simp only [List.foldl_cons, List.foldl_nil]
  show [0] ++ natToBytesBE b 1 ++ natToBytesBE k ((bit_length k + 7) / 8) = _
  have h1 : natToBytesBE b 1 = [b] := by
    show natToBytesBE (b / 256) 0 ++ [b % 256] = [b]
    rw [Nat.mod_eq_of_lt hb]
    rfl
  rw [h1]
  rfl

theorem compress_replicate (b k : Nat) (hb : b < 256) (hk : 1 ≤ k) :
    compress (List.replicate k b) = some (0 :: b :: natToBytesBE k ((bit_length k + 7) / 8)) := by
  unfold compress
  rw [counterItems_replicate k b (by omega)]
  rw [if_neg (by simp)]
  unfold compressWithFreqs
  rw [if_pos (by simp)]
  rw [compress_one_byte_single b k hb]

theorem decompress_zero (b : Nat) (rest : List Nat) :
    decompress (0 :: b :: rest) = some (List.replicate (fromBytesBE rest) b) := by
  show some ((List.replicate (fromBytesBE ((b :: rest).drop 1)) ((b :: rest).take 1)).flatten) = _
  rw [show (b :: rest).drop 1 = rest from rfl, show (b :: rest).take 1 = [b] from rfl]
  rw [flatten_replicate_singleton]

theorem fromBytes_roundtrip_bit_length (k : Nat) :
    fromBytesBE (natToBytesBE k ((bit_length k + 7) / 8)) = k := by
  apply fromBytesBE_natToBytesBE
  rw [pow256_eq_pow2]
  calc k < 2 ^ bit_length k := lt_two_pow_bit_length k
    _ ≤ 2 ^ (8 * ((bit_length k + 7) / 8)) := Nat.pow_le_pow_right (by omega) (by omega)

/-! ## Decoder lemmas: code extraction -/

theorem foldlM_option_cons {σ α : Type} (f : σ → α → Option σ) (b b' : σ) (x : α)
    (xs : List α) (h : f b x = some b') :
    List.foldlM f b (x :: xs) = List.foldlM f b' xs := by
  simp [List.foldlM_cons, h]

theorem foldlM_option_append {σ α : Type} (f : σ → α → Option σ) (b b' : σ)
    (xs ys : List α) (h : List.foldlM f b xs = some b') :
    List.foldlM f b (xs ++ ys) = List.foldlM f b' ys := by
  rw [List.foldlM_append, h]
  rfl

theorem ecStep_push_left (codes : List Bits) (code : Bits) :
    ecStep (codes, code, false) false = some (codes, code ++ [false], false) := rfl

theorem ecStep_push_right (codes : List Bits) (code : Bits) :
    ecStep (codes, code, true) false = some (codes, code ++ [true], false) := rfl

theorem ecStep_record (codes : List Bits) (cs : Bits) (d : Bool) :
    ecStep (codes, cs ++ [d], false) true = some (codes ++ [cs ++ [d]], cs, true) := by
  simp [ecStep]

theorem ecStep_pop (codes : List Bits) (cs : Bits) (d : Bool) :
    ecStep (codes, cs ++ [d], true) true = some (codes, cs, true) := by
  simp [ecStep]

/-- Running `extract_codes` over a subtree's shape bits followed by the
closing 1 bit: starting below a stack `cs ++ [d]`, it appends exactly the
subtree's leaf code paths and pops back to `cs`. -/
theorem ecStep_segment (t : Node) : ∀ (c : Bits) (acc : List Bits) (cs : Bits) (d : Bool),
    List.foldlM ecStep (acc, cs ++ [d], false) ((hfTraverse t c).tree_bits ++ [true])
      = some (acc ++ (travItems t (cs ++ [d])).map (fun x => x.2.2), cs, true) := by
  induction t with
  | leaf b f =>
    intro c acc cs d
    show List.foldlM ecStep (acc, cs ++ [d], false) ([] ++ [true]) = _
    rw [List.nil_append]
    rw [foldlM_option_cons _ _ _ _ _ (ecStep_record acc cs d)]
    simp [travItems]
  | inner b f l r ihl ihr =>
    intro c acc cs d
    have hshape : (hfTraverse (Node.inner b f l r) c).tree_bits ++ [true]
        = false :: (((hfTraverse l (c ++ [false])).tree_bits ++ [true])
            ++ (false :: (((hfTraverse r (c ++ [true])).tree_bits ++ [true]) ++ [true]))) := by
      show (false :: ((hfTraverse l (c ++ [false])).tree_bits
          ++ true :: false :: ((hfTraverse r (c ++ [true])).tree_bits ++ [true]))) ++ [true] = _
      simp
    rw [hshape]
    rw [foldlM_option_cons _ _ _ _ _ (ecStep_push_left acc (cs ++ [d]))]
    rw [foldlM_option_append _ _ _ _ _ (ihl (c ++ [false]) acc (cs ++ [d]) false)]
    rw [foldlM_option_cons _ _ _ _ _ (ecStep_push_right _ (cs ++ [d]))]
    rw [foldlM_option_append _ _ _ _ _ (ihr (c ++ [true]) _ (cs ++ [d]) true)]
    rw [foldlM_option_cons _ _ _ _ _ (ecStep_pop _ cs d)]
    simp [travItems, List.append_assoc]

/-- `extract_codes` on the shape bits of a two-or-more-leaf tree recovers the
leaf code paths in traversal order. -/
theorem extract_codes_tree (b f : Nat) (l r : Node) (c : Bits) :
    extract_codes ((hfTraverse (Node.inner b f l r) c).tree_bits)
      = some ((travItems (Node.inner b f l r) []).map (fun x => x.2.2)) := by
  unfold extract_codes
  have hshape : (hfTraverse (Node.inner b f l r) c).tree_bits
      = false :: (((hfTraverse l (c ++ [false])).tree_bits ++ [true])
          ++ (false :: ((hfTraverse r (c ++ [true])).tree_bits ++ [true]))) := by
    show false :: ((hfTraverse l (c ++ [false])).tree_bits
        ++ true :: false :: ((hfTraverse r (c ++ [true])).tree_bits ++ [true])) = _
    simp
  rw [hshape]
  rw [foldlM_option_cons _ _ _ _ _ (ecStep_push_left [] [])]
  rw [show (([] : Bits) ++ [false]) = ([] : Bits) ++ [false] from rfl]
  rw [foldlM_option_append _ _ _ _ _ (ecStep_segment l (c ++ [false]) [] [] false)]
  rw [foldlM_option_cons _ _ _ _ _ (ecStep_push_right _ [])]
  rw [ecStep_segment r (c ++ [true]) _ [] true]
  simp [travItems]

/-! ## Decoder lemmas: the greedy bit scan -/

theorem decodeStep_hit (d : List (Bits × Nat)) (out : List Nat) (buf : Bits) (bit : Bool)
    (v : Nat) (h : pyDictLookup d (buf ++ [bit]) = some v) :
    decodeStep d (out, buf) bit = (out ++ [v], []) := by
  simp [decodeStep, h]

theorem decodeStep_miss (d : List (Bits × Nat)) (out : List Nat) (buf : Bits) (bit : Bool)
    (h : pyDictLookup d (buf ++ [bit]) = none) :
    decodeStep d (out, buf) bit = (out, buf ++ [bit]) := by
  simp [decodeStep, h]

/-- The output stream of `decode` only grows: the scan from any starting
output is the scan from the empty output, appended. -/
theorem decode_fold_out (d : List (Bits × Nat)) :
    ∀ (bits : Bits) (out : List Nat) (buf : Bits),
      List.foldl (decodeStep d) (out, buf) bits
        = (out ++ (List.foldl (decodeStep d) ([], buf) bits).1,
           (List.foldl (decodeStep d) ([], buf) bits).2) := by
  intro bits
  induction bits with
  | nil => intro out buf; simp
  | cons bit rest ih =>
    intro out buf
    rw [List.foldl_cons, List.foldl_cons]
    cases hl : pyDictLookup d (buf ++ [bit]) with
    | some v =>
      rw [decodeStep_hit d out buf bit v hl, decodeStep_hit d [] buf bit v hl]
      rw [ih (out ++ [v]) [], ih ([] ++ [v]) []]
      simp
    | none =>
      rw [decodeStep_miss d out buf bit hl, decodeStep_miss d [] buf bit hl]
      exact ih out (buf ++ [bit])

theorem goodBuf_nil (d : List (Bits × Nat)) : goodBuf d [] := by
  intro p hp hpre
  rw [List.prefix_nil] at hpre
  exact absurd hpre hp

/-- Every buffer carried by the greedy scan is good: no non-empty prefix of
it is a code. -/
theorem goodBuf_fold (d : List (Bits × Nat)) :
    ∀ (bits : Bits) (st : List Nat × Bits), goodBuf d st.2 →
      goodBuf d (List.foldl (decodeStep d) st bits).2 := by
  intro bits
  induction bits with
  | nil => intro st h; exact h
  | cons bit rest ih =>
    rintro ⟨o, buf⟩ h
    rw [List.foldl_cons]
    refine ih _ ?_
    cases hl : pyDictLookup d (buf ++ [bit]) with
    | some v =>
      rw [decodeStep_hit d o buf bit v hl]
      exact goodBuf_nil d
    | none =>
      rw [decodeStep_miss d o buf bit hl]
      intro p hp hpre
      rcases List.prefix_concat_iff.mp hpre with he | hpre'
      · rw [he]; exact hl
      · exact h p hp hpre'

/-- Scanning a good buffer's own bits from an empty buffer emits nothing and
reconstructs the buffer. -/
theorem foldl_goodBuf_id (d : List (Bits × Nat)) (b : Bits) (hg : goodBuf d b)
    (out : List Nat) :
    List.foldl (decodeStep d) (out, []) b = (out, b) := by
  suffices H : ∀ (suf pre : Bits), pre ++ suf = b →
      List.foldl (decodeStep d) (out, pre) suf = (out, b) by
    exact H b [] rfl
  intro suf
  induction suf with
  | nil =>
    intro pre hpre
    rw [List.append_nil] at hpre
    rw [List.foldl_nil, hpre]
  | cons x t ih =>
    intro pre hpre
    rw [List.foldl_cons]
    have hm : pyDictLookup d (pre ++ [x]) = none := by
      refine hg (pre ++ [x]) (by simp) ⟨t, ?_⟩
      simpa using hpre
    rw [decodeStep_miss d out pre x hm]
    refine ih (pre ++ [x]) ?_
    simpa using hpre

/-- Consuming one complete code: if `c` is in the dict and no proper
non-empty prefix of `c` is, the scan emits `v` and resets the buffer. -/
theorem decode_code (d : List (Bits × Nat)) (c : Bits) (v : Nat)
    (hc : pyDictLookup d c = some v)
    (hpf : ∀ p : Bits, p ≠ [] → p <+: c → p ≠ c → pyDictLookup d p = none)
    (hne : c ≠ []) :
    ∀ (rest : Bits) (out : List Nat),
      List.foldl (decodeStep d) (out, []) (c ++ rest)
        = List.foldl (decodeStep d) (out ++ [v], []) rest := by
  suffices H : ∀ (suf pre : Bits), pre ++ suf = c → suf ≠ [] →
      ∀ (rest : Bits) (out : List Nat),
        List.foldl (decodeStep d) (out, pre) (suf ++ rest)
          = List.foldl (decodeStep d) (out ++ [v], []) rest by
    intro rest out
    exact H c [] rfl hne rest out
  intro suf
  induction suf with
  | nil =>
    intro pre hpre hne'
    exact absurd rfl hne'
  | cons x t ih =>
    intro pre hpre _ rest out
    cases t with
    | nil =>
      simp only [List.cons_append, List.nil_append, List.foldl_cons]
      rw [decodeStep_hit d out pre x v (by rw [hpre]; exact hc)]
    | cons y t' =>
      simp only [List.cons_append, List.foldl_cons]
      have hmiss : pyDictLookup d (pre ++ [x]) = none := by
        refine hpf (pre ++ [x]) (by simp) ⟨y :: t', by simpa using hpre⟩ ?_
        intro he
        have hlen := congrArg List.length hpre
        have hlen2 := congrArg List.length he
        simp at hlen hlen2
        omega
      rw [decodeStep_miss d out pre x hmiss]
      have := ih (pre ++ [x]) (by simpa using hpre) (by simp) rest out
      simpa using this

/-- Decoding a concatenation of complete prefix-free codes returns exactly
the encoded symbols, with no residue. -/
theorem decode_concat_general (d : List (Bits × Nat)) :
    ∀ (xs : List Nat) (g : Nat → Bits),
      (∀ x ∈ xs, g x ≠ [] ∧ pyDictLookup d (g x) = some x ∧
        ∀ p : Bits, p ≠ [] → p <+: g x → p ≠ g x → pyDictLookup d p = none) →
      ∀ out, List.foldl (decodeStep d) (out, []) ((xs.map g).flatten) = (out ++ xs, []) := by
  intro xs
  induction xs with
  | nil => intro g h out; simp
  | cons x t ih =>
    intro g h out
    simp only [List.map_cons, List.flatten_cons]
    obtain ⟨hne, hlook, hpf⟩ := h x (List.mem_cons_self x t)
    rw [decode_code d (g x) x hlook hpf hne _ out]
    rw [ih g (fun y hy => h y (List.mem_cons_of_mem x hy)) (out ++ [x])]
    simp

theorem decode_concat (d : List (Bits × Nat)) (xs : List Nat) (g : Nat → Bits)
    (h : ∀ x ∈ xs, g x ≠ [] ∧ pyDictLookup d (g x) = some x ∧
      ∀ p : Bits, p ≠ [] → p <+: g x → p ≠ g x → pyDictLookup d p = none) :
    decode ((xs.map g).flatten) d = (xs, []) := by
  unfold decode
  rw [decode_concat_general d xs g h []]
  simp

theorem goodBuf_decode (d : List (Bits × Nat)) (X : Bits) : goodBuf d (decode X d).2 :=
  goodBuf_fold d X ([], []) (goodBuf_nil d)

/-- Splitting a scan at any point: the tail scan restarts from the carried
residue. -/
theorem decode_append_chain (d : List (Bits × Nat)) (X Y : Bits) :
    decode (X ++ Y) d
      = ((decode X d).1 ++ (decode ((decode X d).2 ++ Y) d).1,
         (decode ((decode X d).2 ++ Y) d).2) := by
  have h1 : decode ((decode X d).2 ++ Y) d
      = List.foldl (decodeStep d) ([], (decode X d).2) Y := by
    show List.foldl (decodeStep d) ([], []) ((decode X d).2 ++ Y) = _
    rw [List.foldl_append]
    rw [foldl_goodBuf_id d (decode X d).2 (goodBuf_decode d X) []]
  show List.foldl (decodeStep d) ([], []) (X ++ Y) = _
  rw [List.foldl_append, h1]
  have h2 : List.foldl (decodeStep d) ([], []) X = ((decode X d).1, (decode X d).2) := rfl
  rw [h2]
  exact decode_fold_out d Y (decode X d).1 (decode X d).2

/-- The chunked decoding loop is the single scan of the carried bits followed
by all chunk bits. -/
theorem decompLoop_chunks (d : List (Bits × Nat)) :
    ∀ (chunks : List (List Nat)) (out : List Nat) (rest : Bits), chunks ≠ [] →
      List.foldl (fun st chunk =>
        let dr := decode (st.2 ++ bits_from_bytes chunk) d
        (st.1 ++ dr.1, dr.2)) (out, rest) chunks
      = (out ++ (decode (rest ++ (chunks.map bits_from_bytes).flatten) d).1,
         (decode (rest ++ (chunks.map bits_from_bytes).flatten) d).2) := by
  intro chunks
  induction chunks with
  | nil =>
    intro out rest h
    exact absurd rfl h
  | cons c cs ih =>
    intro out rest _
    rw [List.foldl_cons]
    dsimp only
    by_cases hcs : cs = []
    · subst hcs
      simp
    · rw [ih _ _ hcs]
      simp only [List.map_cons, List.flatten_cons]
      rw [← List.append_assoc rest (bits_from_bytes c) ((cs.map bits_from_bytes).flatten)]
      rw [decode_append_chain d (rest ++ bits_from_bytes c) ((cs.map bits_from_bytes).flatten)]
      simp [List.append_assoc]

theorem decompLoop_eq (d : List (Bits × Nat)) (rest : Bits) (chunks : List (List Nat))
    (h : chunks ≠ []) :
    decompLoop d rest chunks = decode (rest ++ (chunks.map bits_from_bytes).flatten) d := by
  unfold decompLoop
  rw [decompLoop_chunks d chunks [] rest h]
  simp

/-! ## Decoder lemmas: byte-level stream parsing -/

theorem natToBytesBE_one (v : Nat) (h : v < 256) : natToBytesBE v 1 = [v] := by
  show natToBytesBE (v / 256) 0 ++ [v % 256] = [v]
  rw [Nat.mod_eq_of_lt h]
  rfl

theorem natToBytesBE_fromBytesBE (vs : List Nat) (h : ∀ v ∈ vs, v < 256) :
    natToBytesBE (fromBytesBE vs) vs.length = vs := by
  induction vs with
  | nil => rfl
  | cons c t ih =>
    have hval : fromBytesBE (c :: t) = c * 256 ^ t.length + fromBytesBE t := by
      have h1 := fromBytesBE_append [c] t
      have h2 : fromBytesBE [c] = c := by simp [fromBytesBE]
      calc fromBytesBE (c :: t) = fromBytesBE ([c] ++ t) := rfl
        _ = c * 256 ^ t.length + fromBytesBE t := by rw [h1, h2]
    have hB : fromBytesBE t < 256 ^ t.length :=
      fromBytesBE_lt t (fun b hb => h b (List.mem_cons_of_mem c hb))
    have hlen : (c :: t).length = 1 + t.length := by
      rw [List.length_cons]
      omega
    rw [hval, hlen, natToBytesBE_split t.length 1 c (fromBytesBE t) hB,
      natToBytesBE_one c (h c (List.mem_cons_self c t)),
      ih (fun b hb => h b (List.mem_cons_of_mem c hb))]
    rfl

theorem bitsOfBytes_natToBytesBE (s : Bits) (k : Nat) (hs : s.length = 8 * k) :
    bitsOfBytes (natToBytesBE (bitsToNat s) k) = s := by
  unfold bitsOfBytes
  have hlt : bitsToNat s < 256 ^ k := by
    rw [pow256_eq_pow2, ← hs]
    exact bitsToNat_lt s
  rw [← fixedBits_fromBytesBE _ (natToBytesBE_lt _ _)]
  rw [fromBytesBE_natToBytesBE _ _ hlt, natToBytesBE_length]
  rw [← hs, fixedBits_bitsToNat]

theorem natToBytesBE_bitsOfBytes (vs : List Nat) (h : ∀ v ∈ vs, v < 256) :
    natToBytesBE (bitsToNat (bitsOfBytes vs)) vs.length = vs := by
  have h1 : bitsOfBytes vs = fixedBits (fromBytesBE vs) (8 * vs.length) :=
    (fixedBits_fromBytesBE vs h).symm
  rw [h1, bitsToNat_fixedBits _ _ (by rw [← pow256_eq_pow2]; exact fromBytesBE_lt vs h)]
  exact natToBytesBE_fromBytesBE vs h

/-- Taking bytes from the byte image of a whole-byte bit string is the byte
image of the corresponding bit prefix. -/
theorem bytesOf_take (s : Bits) (k m : Nat) (hs : s.length = 8 * k) :
    (natToBytesBE (bitsToNat s) k).take m
      = natToBytesBE (bitsToNat (s.take (8 * min m k))) (min m k) := by
  rcases le_or_lt k m with hkm | hmk
  · rw [min_eq_right hkm]
    rw [List.take_of_length_le (show (natToBytesBE (bitsToNat s) k).length ≤ m by
      rw [natToBytesBE_length]; exact hkm)]
    rw [List.take_of_length_le (show s.length ≤ 8 * k by omega)]
  · rw [min_eq_left (le_of_lt hmk)]
    have h2 : natToBytesBE (bitsToNat s) k
        = natToBytesBE (bitsToNat (s.take (8 * m))) m
          ++ natToBytesBE (bitsToNat (s.drop (8 * m))) (k - m) := by
      conv_lhs => rw [← List.take_append_drop (8 * m) s,
        show k = m + (k - m) from by omega]
      exact natToBytesBE_bits_append _ _ m (k - m)
        (by rw [List.length_take]; omega) (by rw [List.length_drop]; omega)
    rw [h2]
    exact List.take_left' (by rw [natToBytesBE_length])

/-- Dropping bytes from the byte image of a whole-byte bit string is the byte
image of the corresponding bit suffix. -/
theorem bytesOf_drop (s : Bits) (k m : Nat) (hs : s.length = 8 * k) :
    (natToBytesBE (bitsToNat s) k).drop m
      = natToBytesBE (bitsToNat (s.drop (8 * m))) (k - m) := by
  rcases le_or_lt k m with hkm | hmk
  · rw [List.drop_eq_nil_of_le (by rw [natToBytesBE_length]; omega)]
    rw [show k - m = 0 from by omega]
    rfl
  · have h2 : natToBytesBE (bitsToNat s) k
        = natToBytesBE (bitsToNat (s.take (8 * m))) m
          ++ natToBytesBE (bitsToNat (s.drop (8 * m))) (k - m) := by
      conv_lhs => rw [← List.take_append_drop (8 * m) s,
        show k = m + (k - m) from by omega]
      exact natToBytesBE_bits_append _ _ m (k - m)
        (by rw [List.length_take]; omega) (by rw [List.length_drop]; omega)
    rw [h2]
    exact List.drop_left' (by rw [natToBytesBE_length])

theorem findIdx_replicate_true (A : Nat) (z : Bits) :
    (List.replicate A true ++ false :: z).findIdx? (fun b => !b) = some A := by
  suffices H : ∀ (A i : Nat),
      (List.replicate A true ++ false :: z).findIdx? (fun b => !b) i = some (A + i) by
    have := H A 0
    simpa using this
  intro A
  induction A with
  | zero =>
    intro i
    simp [List.findIdx?_cons]
  | succ n ih =>
    intro i
    rw [List.replicate_succ, List.cons_append, List.findIdx?_cons]
    rw [if_neg (by decide)]
    rw [ih (i + 1)]
    congr 1
    omega

theorem bitsOfBytes_append (a b : List Nat) :
    bitsOfBytes (a ++ b) = bitsOfBytes a ++ bitsOfBytes b := by
  simp [bitsOfBytes]

theorem bitsOfBytes_flatten (l : List (List Nat)) :
    bitsOfBytes l.flatten = (l.map bitsOfBytes).flatten := by
  induction l with
  | nil => rfl
  | cons c t ih => simp [bitsOfBytes_append, ih]

theorem chunksOf_mem_subset (sz : Nat) (hsz : sz ≠ 0) (xs : List α) :
    ∀ c ∈ chunksOf sz xs, ∀ b ∈ c, b ∈ xs := by
  intro c hc b hb
  rw [← flatten_chunksOf sz hsz xs]
  exact List.mem_flatten.mpr ⟨c, hc, hb⟩

/-- The bit streams of the chunks of a byte list concatenate to the bit image
of the whole list. -/
theorem flatten_bits_chunksOf (sz : Nat) (hsz : sz ≠ 0) (bs : List Nat)
    (h : ∀ b ∈ bs, b < 256) :
    ((chunksOf sz bs).map bits_from_bytes).flatten = bitsOfBytes bs := by
  have hmap : (chunksOf sz bs).map bits_from_bytes = (chunksOf sz bs).map bitsOfBytes := by
    refine List.map_congr_left ?_
    intro c hc
    exact bits_from_bytes_eq c (chunksOf_ne_nil sz bs c hc)
      (fun b hb => h b (chunksOf_mem_subset sz hsz bs c hc b hb))
  rw [hmap, ← bitsOfBytes_flatten, flatten_chunksOf sz hsz bs]

/-! ## Decoder lemmas: assembling the round trip -/

theorem take_append_of_le {α : Type} (l₁ l₂ : List α) (n : Nat) (h : l₁.length ≤ n) :
    (l₁ ++ l₂).take n = l₁ ++ l₂.take (n - l₁.length) := by
  conv_lhs => rw [show n = l₁.length + (n - l₁.length) from by omega]
  exact List.take_append _

theorem drop_append_of_le {α : Type} (l₁ l₂ : List α) (n : Nat) (h : l₁.length ≤ n) :
    (l₁ ++ l₂).drop n = l₂.drop (n - l₁.length) := by
  conv_lhs => rw [show n = l₁.length + (n - l₁.length) from by omega]
  exact List.drop_append _

theorem bitsOfBytes_length (bs : List Nat) : (bitsOfBytes bs).length = 8 * bs.length := by
  induction bs with
  | nil => rfl
  | cons c t ih =>
    show (fixedBits c 8 ++ bitsOfBytes t).length = _
    rw [List.length_append, length_fixedBits, ih, List.length_cons]
    ring

theorem extract_codes_root (root : Node) (hinner : isInnerNode root) (c : Bits) :
    extract_codes ((hfTraverse root c).tree_bits)
      = some ((travItems root []).map (fun x => x.2.2)) := by
  cases root with
  | leaf b f => exact absurd hinner (by simp [isInnerNode])
  | inner b f l r => exact extract_codes_tree b f l r c

theorem tree_bits_head (root : Node) (hinner : isInnerNode root) (c : Bits) :
    ∃ z, (hfTraverse root c).tree_bits = false :: z := by
  cases root with
  | leaf b f => exact absurd hinner (by simp [isInnerNode])
  | inner b f l r =>
    exact ⟨_, rfl⟩

theorem travItems_root_path_nonempty (root : Node) (hinner : isInnerNode root) :
    ∀ x ∈ travItems root [], x.2.2 ≠ [] := by
  cases root with
  | leaf b f => exact absurd hinner (by simp [isInnerNode])
  | inner b f l r => exact travItems_path_nonempty b f l r

theorem chunksOf_nil (sz : Nat) : chunksOf sz ([] : List Nat) = [] := by
  rw [chunksOf_eq]
  simp

theorem chunksOf_ne_nil_of_ne (sz : Nat) (hsz : sz ≠ 0) (xs : List Nat) (hne : xs ≠ []) :
    chunksOf sz xs ≠ [] := by
  intro h0
  have h1 := flatten_chunksOf sz hsz xs
  rw [h0] at h1
  exact hne h1.symm

theorem decompress_cons (b0 : Nat) (tl : List Nat) (hb0 : ¬ b0 = 0) :
    decompress (b0 :: tl)
      = match decompSetup (b0 + 1) tl with
        | none => none
        | some (d, restBits, rest2) =>
          let or := decompLoop d restBits (chunksOf default_size rest2)
          some (if or.2.isEmpty then or.1 else or.1 ++ (decode or.2 d).1) := by
  show (if b0 = 0 then
      some ((List.replicate (fromBytesBE (tl.drop 1)) (tl.take 1)).flatten)
    else
      match decompSetup (b0 + 1) tl with
      | none => none
      | some (d, restBits, rest2) =>
        let or := decompLoop d restBits (chunksOf default_size rest2)
        some (if or.2.isEmpty then or.1 else or.1 ++ (decode or.2 d).1)) = _
  rw [if_neg hb0]

/-- The decoder inverts the encoder's byte stream: reading the byte image of
`serialize ++ E` back recovers the leaf bytes, the code dict, and the payload
bits `E`, and emits exactly what the greedy scan of `E` yields. -/
theorem decompress_stream (root : Node) (hinner : isInnerNode root) (E : Bits)
    (xs : List Nat) (L : Nat)
    (hLdef : (travItems root []).length = L) (hL2 : 2 ≤ L) (hL256 : L ≤ 256)
    (hbyte : ∀ x ∈ travItems root [], x.1 < 256)
    (hmod : (hfSerialize L root ++ E).length % 8 = 0)
    (hEne : E ≠ [])
    (hdec : decode E (pyDictOfList
      (((travItems root []).map (fun x => x.2.2)).zip
        ((travItems root []).map Prod.fst))) = (xs, [])) :
    decompress ((create_bytes (hfSerialize L root ++ E)).1) = some xs := by
  set items := travItems root [] with hitems
  set leafVals := items.map Prod.fst with hleafVals
  set T := (hfTraverse root []).tree_bits with hT
  set A := hfAlign root with hA
  set S' := List.replicate A true ++ (T ++ E) with hS'
  -- the header bits are the byte image of the leaf bytes
  have hHdr : (hfTraverse root []).headerAdds.flatten = bitsOfBytes leafVals := by
    rw [travItems_headerAdds]
    unfold bitsOfBytes
    rw [hleafVals, hitems, List.map_map]
    congr 1
    refine List.map_congr_left ?_
    intro x hx
    show int_to_bits x.1 8 = fixedBits x.1 8
    exact int_to_bits_eq_fixedBits _ 8 (by have := hbyte x hx; omega) (by omega)
  have hserShape : hfSerialize L root ++ E
      = (int_to_bits (L - 1) 8 ++ bitsOfBytes leafVals) ++ S' := by
    unfold hfSerialize
    dsimp only
    rw [hHdr, ← hT, ← hA, hS']
    simp [List.append_assoc]
  have hlenN8 : (int_to_bits (L - 1) 8).length = 8 := by
    rw [int_to_bits_eq_fixedBits _ 8 (by omega) (by omega), length_fixedBits]
  have hlenLV : leafVals.length = L := by
    rw [hleafVals, List.length_map, hLdef]
  have hlenHdr : (bitsOfBytes leafVals).length = 8 * L := by
    rw [bitsOfBytes_length, hlenLV]
  have hTlen : T.length = 4 * L - 4 := by
    have h1 : (leafItems root).length = L := by
      rw [← travItems_leafItems root [], List.length_map, ← hitems, hLdef]
    rw [hT, tree_bits_length, h1]
  have hA8 : A < 8 := by
    rw [hA, hfAlign_eq]
    exact Nat.mod_lt _ (by omega)
  have hSlen : (hfSerialize L root ++ E).length = 8 + 8 * L + S'.length := by
    rw [hserShape]
    simp only [List.length_append, hlenN8, hlenHdr]
  have hS'mod : S'.length % 8 = 0 := by omega
  set k' := S'.length / 8 with hk'
  have hS'len : S'.length = 8 * k' := by omega
  have hS'val : S'.length = A + ((4 * L - 4) + E.length) := by
    rw [hS']
    simp only [List.length_append, List.length_replicate, hTlen]
  have hE1 : 1 ≤ E.length := List.length_pos.mpr hEne
  have hk'1 : 1 ≤ k' := by omega
  set len := (4 * L - 4 + 7) / 8 + 1 with hlen
  set m' := min len k' with hm'
  have hlen1 : 1 ≤ len := by rw [hlen]; omega
  have hm'le : m' ≤ k' := by rw [hm']; exact min_le_right _ _
  have hm'1 : 1 ≤ m' := by
    rw [hm']
    rcases le_or_lt len k' with h | h
    · rw [min_eq_left h]; omega
    · rw [min_eq_right (le_of_lt h)]; omega
  have hKEY : A + (4 * L - 4) ≤ 8 * m' := by
    rcases le_or_lt len k' with h | h
    · have : m' = len := by rw [hm', min_eq_left h]
      rw [this, hlen]
      omega
    · have : m' = k' := by rw [hm', min_eq_right (le_of_lt h)]
      rw [this]
      omega
  set W := natToBytesBE (bitsToNat S') k' with hW
  have hWlen : W.length = k' := by rw [hW, natToBytesBE_length]
  -- the byte stream
  have hZ : (create_bytes (hfSerialize L root ++ E)).1 = (L - 1) :: (leafVals ++ W) := by
    rw [create_bytes_full _ hmod]
    dsimp only
    rw [hserShape]
    have hlenTot : ((int_to_bits (L - 1) 8 ++ bitsOfBytes leafVals) ++ S').length
        = 8 * ((1 + L) + k') := by
      simp only [List.length_append, hlenN8, hlenHdr]
      omega
    rw [hlenTot, show (8 * ((1 + L) + k')) / 8 = (1 + L) + k' from by omega]
    rw [natToBytesBE_bits_append _ _ (1 + L) k'
      (by simp only [List.length_append, hlenN8, hlenHdr]; omega) hS'len]
    rw [natToBytesBE_bits_append (int_to_bits (L - 1) 8) (bitsOfBytes leafVals) 1 L
      (by rw [hlenN8]) (by rw [hlenHdr])]
    have hN8v : natToBytesBE (bitsToNat (int_to_bits (L - 1) 8)) 1 = [L - 1] := by
      rw [int_to_bits_eq_fixedBits _ 8 (by omega) (by omega),
        bitsToNat_fixedBits _ _ (by omega), natToBytesBE_one _ (by omega)]
    have hLVlt : ∀ v ∈ leafVals, v < 256 := by
      intro v hv
      rw [hleafVals] at hv
      obtain ⟨x, hx, rfl⟩ := List.mem_map.mp hv
      exact hbyte x (by rw [hitems] at hx; exact hx)
    have hLVv : natToBytesBE (bitsToNat (bitsOfBytes leafVals)) L = leafVals := by
      rw [← hlenLV]
      exact natToBytesBE_bitsOfBytes leafVals hLVlt
    rw [hN8v, hLVv, ← hW]
    simp
  -- header parsing
  have hWtake : bits_from_bytes (W.take len) = S'.take (8 * m') := by
    rw [hW, bytesOf_take S' k' len hS'len]
    rw [← hm']
    exact bits_from_bytes_natToBytesBE _ m' hm'1 (by rw [List.length_take]; omega)
  obtain ⟨z0, hz0⟩ := tree_bits_head root hinner []
  have hTE : (T ++ E).take (8 * m' - A) = false :: ((z0 ++ E).take (8 * m' - A - 1)) := by
    rw [hT, hz0]
    show ((false :: z0) ++ E).take (8 * m' - A) = _
    rw [List.cons_append,
      show 8 * m' - A = (8 * m' - A - 1) + 1 from by omega, List.take_succ_cons]
    simp
  have htb : S'.take (8 * m') = List.replicate A true
      ++ ((T ++ E).take (8 * m' - A)) := by
    rw [hS', take_append_of_le _ _ _ (by rw [List.length_replicate]; omega),
      List.length_replicate]
  have htake2 : ((T ++ E).take (8 * m' - A)).take (4 * L - 4) = T := by
    rw [List.take_take, min_eq_left (by omega)]
    exact List.take_left' hTlen
  have hec : extract_codes T = some (items.map (fun x => x.2.2)) := by
    rw [hT, hitems]
    exact extract_codes_root root hinner []
  have hdrop2 : ((T ++ E).take (8 * m' - A)).drop (4 * L - 4)
      = E.take (8 * m' - A - (4 * L - 4)) := by
    rw [List.drop_take, List.drop_left' hTlen]
  have hsetup : decompSetup L (leafVals ++ W)
      = some (pyDictOfList ((items.map (fun x => x.2.2)).zip leafVals),
          E.take (8 * m' - A - (4 * L - 4)), W.drop len) := by
    unfold decompSetup
    dsimp only
    rw [List.take_left' hlenLV, List.drop_left' hlenLV, ← hlen]
    rw [hWtake, htb, hTE, findIdx_replicate_true]
    dsimp only
    rw [List.drop_left' (by rw [List.length_replicate])]
    rw [← hTE, htake2, hec]
    dsimp only
    rw [hdrop2]
  -- run the decoder
  rw [hZ, decompress_cons _ _ (by omega), show L - 1 + 1 = L from by omega, hsetup]
  dsimp only
  rcases le_or_lt k' len with hkl | hlk
  · -- the whole payload was inside the header read; the final fallback decodes it
    have hm'k : m' = k' := by rw [hm', min_eq_right hkl]
    have hrest2 : W.drop len = [] := by
      rw [hW, bytesOf_drop S' k' len hS'len, show k' - len = 0 from by omega]
      rfl
    have hrestBits : E.take (8 * m' - A - (4 * L - 4)) = E :=
      List.take_of_length_le (by omega)
    rw [hrest2, hrestBits, chunksOf_nil]
    rw [show decompLoop (pyDictOfList ((items.map (fun x => x.2.2)).zip leafVals)) E []
      = ([], E) from rfl]
    rw [if_neg (by simp [hEne])]
    rw [hleafVals, hdec]
    rfl
  · -- leftover payload bytes feed the chunked loop
    have hm'l : m' = len := by rw [hm', min_eq_left (le_of_lt hlk)]
    have hrest2_eq : W.drop len = natToBytesBE (bitsToNat (S'.drop (8 * len))) (k' - len) := by
      rw [hW]
      exact bytesOf_drop S' k' len hS'len
    have hrest2_ne : W.drop len ≠ [] := by
      rw [hrest2_eq]
      intro h0
      have h1 := congrArg List.length h0
      rw [natToBytesBE_length] at h1
      simp at h1
      omega
    have hchne := chunksOf_ne_nil_of_ne default_size (by decide) (W.drop len) hrest2_ne
    rw [decompLoop_eq _ _ _ hchne]
    rw [flatten_bits_chunksOf default_size (by decide) _
      (by rw [hrest2_eq]; exact natToBytesBE_lt _ _)]
    have hbits2 : bitsOfBytes (W.drop len) = S'.drop (8 * len) := by
      rw [hrest2_eq]
      apply bitsOfBytes_natToBytesBE
      rw [List.length_drop]
      omega
    rw [hbits2]
    have hfull : E.take (8 * m' - A - (4 * L - 4)) ++ S'.drop (8 * len) = E := by
      have hd : S'.drop (8 * len) = E.drop (8 * m' - A - (4 * L - 4)) := by
        rw [hS', drop_append_of_le _ _ _ (by rw [List.length_replicate]; omega),
          List.length_replicate,
          drop_append_of_le _ _ _ (by rw [hTlen]; omega), hTlen]
        congr 1
        omega
      rw [hd, List.take_append_drop]
    rw [hfull, hleafVals, hdec]
    simp

/-- Round trip in the multi-symbol case. -/
theorem roundtrip_multi (xs : List Nat) (hb : ∀ x ∈ xs, x < 256)
    (h2 : 2 ≤ (counterItems xs).length) :
    ∃ Z, compress xs = some Z ∧ decompress Z = some xs := by
  obtain ⟨root, E, hinit, hperm, hwf, hinner, hdict, hkeys_nodup, hE, hElen, hcomp,
    hserlen, hmod⟩ := compress_structure xs hb h2
  have hfs_keys : (counterItems xs).map Prod.fst = pyKeys xs := by
    unfold counterItems
    rw [List.map_map]
    have he : (Prod.fst ∘ fun k => (k, xs.count k)) = fun k => k := rfl
    rw [he]
    exact List.map_id _
  have hkeys_eq : (travItems root []).map Prod.fst = (leafItems root).map Prod.fst := by
    rw [← travItems_leafItems root []]
    simp
  have hkeys_perm : ((travItems root []).map Prod.fst).Perm
      ((counterItems xs).map Prod.fst) := by
    rw [hkeys_eq]
    exact hperm.map Prod.fst
  have hitems_len : (travItems root []).length = (counterItems xs).length := by
    have h1 : ((travItems root []).map (fun x => (x.1, x.2.1))).length
        = (leafItems root).length := by
      rw [travItems_leafItems]
    rw [List.length_map] at h1
    rw [h1, hperm.length_eq]
  have hbyte_items : ∀ x ∈ travItems root [], x.1 < 256 := by
    intro x hx
    have h1 : x.1 ∈ (travItems root []).map Prod.fst := List.mem_map_of_mem Prod.fst hx
    rw [hkeys_perm.mem_iff, hfs_keys, mem_pyKeys] at h1
    exact hb x.1 h1
  have hL256 : (counterItems xs).length ≤ 256 := by
    have hnd : ((counterItems xs).map Prod.fst).Nodup := by
      rw [hfs_keys]
      exact pyKeys_nodup xs
    have h1 : ((counterItems xs).map Prod.fst).toFinset.card
        = ((counterItems xs).map Prod.fst).length := List.toFinset_card_of_nodup hnd
    have h2f : ((counterItems xs).map Prod.fst).toFinset ⊆ Finset.range 256 := by
      intro y hy
      rw [List.mem_toFinset, hfs_keys, mem_pyKeys] at hy
      simpa using hb y hy
    have h3 := Finset.card_le_card h2f
    rw [h1, Finset.card_range, List.length_map] at h3
    exact h3
  -- the code-to-byte dict seen by the decoder
  have hcodes_nodup : ((travItems root []).map (fun x => x.2.2)).Nodup := by
    have hpw := travItems_pairwise root []
    have h1 : ((travItems root []).map (fun x => x.2.2)).Pairwise (fun a b => a ≠ b) := by
      rw [List.pairwise_map]
      exact hpw.imp (fun h => fun he => h.1 (he ▸ List.prefix_refl _))
    exact h1
  have hddec : pyDictOfList (((travItems root []).map (fun x => x.2.2)).zip
      ((travItems root []).map Prod.fst))
      = (travItems root []).map (fun x => (x.2.2, x.1)) := by
    rw [List.zip_map']
    refine pyDictOfList_nodup _ ?_
    have h1 : (((travItems root []).map (fun a => (a.2.2, a.1))).map Prod.fst)
        = (travItems root []).map (fun x => x.2.2) := by
      rw [List.map_map]
      rfl
    rw [h1]
    exact hcodes_nodup
  -- membership and per-symbol lookups
  have hlookup : ∀ x ∈ xs, ∃ ix ∈ travItems root [],
      ix.1 = x ∧ pyDictLookup (hfBytesCodes root) x = some ix.2.2 := by
    intro x hx
    have h1 : x ∈ (travItems root []).map Prod.fst := by
      rw [hkeys_perm.mem_iff, hfs_keys, mem_pyKeys]
      exact hx
    obtain ⟨ix, hix, hix1⟩ := List.mem_map.mp h1
    refine ⟨ix, hix, hix1, ?_⟩
    rw [← hix1, hdict]
    refine pyDictLookup_of_mem _ _ _ (List.mem_map.mpr ⟨ix, hix, rfl⟩) ?_
    have h2 : (((travItems root []).map (fun y => (y.1, y.2.2))).map Prod.fst)
        = (travItems root []).map Prod.fst := by
      rw [List.map_map]
      rfl
    rw [h2]
    exact hkeys_nodup
  have hEeq : E = (xs.map
      (fun b => (pyDictLookup (hfBytesCodes root) b).getD [])).flatten := by
    have h1 := encode_some xs (hfBytesCodes root) (fun x hx => by
      obtain ⟨ix, _, _, hl⟩ := hlookup x hx
      exact ⟨ix.2.2, hl⟩)
    rw [hE] at h1
    exact (Option.some.injEq _ _).mp h1
  -- conditions for decoding the payload
  have hcond : ∀ x ∈ xs,
      (fun b => (pyDictLookup (hfBytesCodes root) b).getD []) x ≠ [] ∧
      pyDictLookup ((travItems root []).map (fun y => (y.2.2, y.1)))
        ((fun b => (pyDictLookup (hfBytesCodes root) b).getD []) x) = some x ∧
      ∀ p : Bits, p ≠ [] →
        p <+: (fun b => (pyDictLookup (hfBytesCodes root) b).getD []) x →
        p ≠ (fun b => (pyDictLookup (hfBytesCodes root) b).getD []) x →
        pyDictLookup ((travItems root []).map (fun y => (y.2.2, y.1))) p = none := by
    intro x hx
    obtain ⟨ix, hix, hix1, hl⟩ := hlookup x hx
    have hgx : (fun b => (pyDictLookup (hfBytesCodes root) b).getD []) x = ix.2.2 := by
      show (pyDictLookup (hfBytesCodes root) x).getD [] = ix.2.2
      rw [hl]
      rfl
    rw [hgx]
    have hdeckeys : (((travItems root []).map (fun y => (y.2.2, y.1))).map Prod.fst)
        = (travItems root []).map (fun x => x.2.2) := by
      rw [List.map_map]
      rfl
    refine ⟨travItems_root_path_nonempty root hinner ix hix, ?_, ?_⟩
    · have h1 := pyDictLookup_of_mem ((travItems root []).map (fun y => (y.2.2, y.1)))
        ix.2.2 ix.1 (List.mem_map.mpr ⟨ix, hix, rfl⟩) (by rw [hdeckeys]; exact hcodes_nodup)
      rw [h1, hix1]
    · intro p hp hppre hpne
      refine pyDictLookup_eq_none _ _ ?_
      intro q hq
      obtain ⟨iy, hiy, rfl⟩ := List.mem_map.mp hq
      show iy.2.2 ≠ p
      intro he
      have hiyne : iy ≠ ix := by
        intro he2
        rw [he2] at he
        exact hpne he.symm
      have hpw := travItems_pairwise root []
      have hsymm : Symmetric (fun a b : Nat × Nat × Bits =>
          ¬ a.2.2 <+: b.2.2 ∧ ¬ b.2.2 <+: a.2.2) := by
        intro a b hab
        exact ⟨hab.2, hab.1⟩
      have hR := (List.Pairwise.forall hsymm hpw) hiy hix hiyne
      exact hR.1 (he ▸ hppre)
  have hdec : decode E (pyDictOfList (((travItems root []).map (fun x => x.2.2)).zip
      ((travItems root []).map Prod.fst))) = (xs, []) := by
    rw [hddec, hEeq]
    exact decode_concat _ xs _ hcond
  -- payload is non-empty
  have hfreq_pos : ∀ x ∈ travItems root [], 1 ≤ x.2.1 := by
    intro x hx
    have h1 : (x.1, x.2.1) ∈ leafItems root := by
      rw [← travItems_leafItems root []]
      exact List.mem_map.mpr ⟨x, hx, rfl⟩
    have h2 : (x.1, x.2.1) ∈ counterItems xs := hperm.mem_iff.mp h1
    have h3 := (counterItems_mem xs x.1 x.2.1).mp h2
    have h4 := List.count_pos_iff_mem.mpr h3.1
    omega
  have hEne : E ≠ [] := by
    intro h0
    have h1 : E.length = 0 := by rw [h0]; rfl
    rw [hElen, travItems_enc_len] at h1
    cases hi0 : travItems root [] with
    | nil =>
      rw [hi0] at hitems_len
      simp at hitems_len
      omega
    | cons i0 irest =>
      have hi0mem : i0 ∈ travItems root [] := by
        rw [hi0]
        exact List.mem_cons_self _ _
      have hf := hfreq_pos i0 hi0mem
      have hpl : 1 ≤ i0.2.2.length :=
        List.length_pos.mpr (travItems_root_path_nonempty root hinner i0 hi0mem)
      rw [hi0] at h1
      simp only [List.map_cons, List.sum_cons] at h1
      have hterm : 1 ≤ i0.2.1 * i0.2.2.length := by
        calc 1 = 1 * 1 := rfl
          _ ≤ i0.2.1 * i0.2.2.length := Nat.mul_le_mul hf hpl
      omega
  refine ⟨_, hcomp, ?_⟩
  exact decompress_stream root hinner E xs (counterItems xs).length hitems_len h2 hL256
    hbyte_items hmod hEne hdec

/-- Round trip in the one-symbol case. -/
theorem roundtrip_single (xs : List Nat) (hne : xs ≠ []) (hb : ∀ x ∈ xs, x < 256)
    (h1 : (counterItems xs).length = 1) :
    ∃ Z, compress xs = some Z ∧ decompress Z = some xs := by
  have hkeys : (pyKeys xs).length = 1 := by
    have h2 : (counterItems xs).length = (pyKeys xs).length := by
      unfold counterItems
      rw [List.length_map]
    omega
  obtain ⟨k0, hk0⟩ : ∃ k0, pyKeys xs = [k0] := by
    cases hp : pyKeys xs with
    | nil =>
      rw [hp] at hkeys
      simp at hkeys
    | cons a t =>
      rw [hp] at hkeys
      simp at hkeys
      exact ⟨a, by rw [hkeys]⟩
  have hall : ∀ y ∈ xs, y = k0 := by
    intro y hy
    have hm : y ∈ pyKeys xs := (mem_pyKeys xs y).mpr hy
    rw [hk0] at hm
    simpa using hm
  have hxs : xs = List.replicate xs.length k0 := List.eq_replicate_of_mem hall
  have hk0lt : k0 < 256 := by
    refine hb k0 ?_
    exact (mem_pyKeys xs k0).mp (by rw [hk0]; exact List.mem_cons_self _ _)
  have hlen1 : 1 ≤ xs.length := List.length_pos.mpr hne
  have hcomp : compress xs = some (0 :: k0 :: natToBytesBE xs.length
      ((bit_length xs.length + 7) / 8)) := by
    conv_lhs => rw [hxs]
    exact compress_replicate k0 xs.length hk0lt hlen1
  refine ⟨_, hcomp, ?_⟩
  rw [decompress_zero, fromBytes_roundtrip_bit_length, ← hxs]

/-! ## Two-symbol heaps -/

theorem nodeLt_asymm (a b : Node) (h : nodeLt a b = true) : nodeLt b a = false := by
  unfold nodeLt at h ⊢
  simp only [Bool.or_eq_true, Bool.and_eq_true, decide_eq_true_eq, beq_iff_eq] at h
  simp only [Bool.or_eq_false_iff, Bool.and_eq_false_iff, decide_eq_false_iff_not,
    Bool.not_eq_true, beq_eq_false_iff_ne, ne_eq]
  omega

theorem nodeLt_total_of_ne (a b : Node) (hb : a.byte ≠ b.byte) :
    nodeLt a b = true ∨ nodeLt b a = true := by
  unfold nodeLt
  simp only [Bool.or_eq_true, Bool.and_eq_true, decide_eq_true_eq, beq_iff_eq]
  omega

/-- Building a Huffman tree from exactly two items: the smaller node (by the
heap order) becomes the left child. -/
theorem huffmanInit_pair (a b : Nat × Nat) :
    huffmanInit [a, b]
      = some (if nodeLt (Node.leaf a.1 a.2) (Node.leaf b.1 b.2)
        then Node.inner (a.1 + b.1) (a.2 + b.2) (Node.leaf a.1 a.2) (Node.leaf b.1 b.2)
        else Node.inner (b.1 + a.1) (b.2 + a.2) (Node.leaf b.1 b.2) (Node.leaf a.1 a.2)) := by
  by_cases h : nodeLt (Node.leaf a.1 a.2) (Node.leaf b.1 b.2)
  · rw [if_pos h]
    simp [huffmanInit, heapify, heapifyFrom, siftup, siftupLoop, siftupLoopF,
      siftdownLoop, siftdownLoopF, pickChild, lget, buildLoop, heappop, heappush, h,
      Node.byte, Node.freq]
  · rw [if_neg h]
    rw [Bool.not_eq_true] at h
    simp [huffmanInit, heapify, heapifyFrom, siftup, siftupLoop, siftupLoopF,
      siftdownLoop, siftdownLoopF, pickChild, lget, buildLoop, heappop, heappush, h,
      Node.byte, Node.freq]

/-! ## Claim theorems -/

/-- C1: for every non-empty byte sequence `X`, the encoder succeeds and
produces a byte stream `Z`, and the decoder run on `Z` writes exactly `X`. -/
theorem c1_round_trip (xs : List Nat) (hne : xs ≠ []) (hb : ∀ x ∈ xs, x < 256) :
    ∃ Z, compress xs = some Z ∧ decompress Z = some xs := by
  have hne' : counterItems xs ≠ [] := by
    intro h0
    exact hne ((counterItems_isEmpty xs).mp (by rw [h0]; rfl))
  have hlen : 1 ≤ (counterItems xs).length := List.length_pos.mpr hne'
  rcases Nat.lt_or_ge (counterItems xs).length 2 with h | h
  · exact roundtrip_single xs hne hb (by omega)
  · exact roundtrip_multi xs hb h

/-- Closed instance of `c1_round_trip` on the input `61 62`. -/
theorem c1_round_trip_witness :
    ∃ Z, compress [97, 98] = some Z ∧ decompress Z = some [97, 98] :=
  c1_round_trip [97, 98] (by decide) (by decide)

/-- C4: for an input that is a single byte `b` repeated `k ≥ 1` times, the
encoder emits `0x00`, then `b`, then `k` big-endian on
`ceil(bit_length(k)/8)` bytes; the decoder, on a leading `0x00`, reads one
symbol byte, reads all remaining bytes as a big-endian count, and writes that
many copies of the symbol — in particular it inverts the encoder. -/
theorem c4_one_symbol_case (b k : Nat) (hb : b < 256) (hk : 1 ≤ k) :
    compress (List.replicate k b) =
      some (0 :: b :: natToBytesBE k ((bit_length k + 7) / 8)) ∧
    decompress (0 :: b :: natToBytesBE k ((bit_length k + 7) / 8)) =
      some (List.replicate k b) ∧
    ∀ rest : List Nat, decompress (0 :: b :: rest) =
      some (List.replicate (fromBytesBE rest) b) := by
  refine ⟨compress_replicate b k hb hk, ?_, fun rest => decompress_zero b rest⟩
  rw [decompress_zero, fromBytes_roundtrip_bit_length]

/-- Closed instance of `c4_one_symbol_case` at `b = 97`, `k = 300`. -/
theorem c4_one_symbol_case_witness :
    compress (List.replicate 300 97) = some [0, 97, 1, 44] ∧
    decompress [0, 97, 1, 44] = some (List.replicate 300 97) := by
  have h := c4_one_symbol_case 97 300 (by decide) (by decide)
  have he : natToBytesBE 300 ((bit_length 300 + 7) / 8) = [1, 44] := by decide
  exact ⟨by rw [h.1, he], by rw [← he]; exact h.2.1⟩

/-- C5: the encoder fails (raising `EmptyFile`, modelled by `none`, before
anything is written) exactly on the empty input; on any non-empty byte input
it succeeds. -/
theorem c5_empty_input_failure :
    compress [] = none ∧
    ∀ xs : List Nat, xs ≠ [] → (∀ x ∈ xs, x < 256) → ∃ out, compress xs = some out := by
  refine ⟨rfl, ?_⟩
  intro xs hne hb
  have hfs : ¬ (counterItems xs).isEmpty = true := by
    rw [counterItems_isEmpty]
    exact hne
  have hpos : 1 ≤ (counterItems xs).length := by
    cases h : counterItems xs with
    | nil => rw [h] at hfs; simp at hfs
    | cons p t => simp
  by_cases h1 : (counterItems xs).length = 1
  · refine ⟨compress_one_byte (counterItems xs), ?_⟩
    unfold compress
    rw [if_neg hfs]
    unfold compressWithFreqs
    rw [if_pos h1]
  · obtain ⟨root, E, _, _, _, _, _, _, _, _, hcomp, _, _⟩ :=
      compress_structure xs hb (by omega)
    exact ⟨_, hcomp⟩

/-- Closed instance of `c5_empty_input_failure` at input `61 61 62`. -/
theorem c5_empty_input_failure_witness :
    compress [] = none ∧ ∃ out, compress [97, 97, 98] = some out :=
  ⟨c5_empty_input_failure.1,
    c5_empty_input_failure.2 [97, 97, 98] (by decide) (by decide)⟩

theorem headerAdds_flatten_len (root : Node)
    (h : ∀ x ∈ travItems root [], x.1 < 256) :
    (hfTraverse root []).headerAdds.flatten.length = 8 * (travItems root []).length := by
  rw [travItems_headerAdds, List.length_flatten, List.map_map]
  rw [List.map_congr_left (fun x hx => by
    show (List.length ∘ fun x => int_to_bits x.1 8) x = (fun _ => 8) x
    simp only [Function.comp]
    rw [int_to_bits_eq_fixedBits _ 8 (by have := h x hx; omega) (by omega), length_fixedBits])]
  rw [List.map_const', List.sum_replicate]
  simp [Nat.mul_comm]

/-- C7: for every frequency map with `L ≥ 2` distinct byte symbols,
`serialize` produces, in order, an 8-bit field holding `L - 1`, the `L` leaf
symbols as 8 bits each in pre-order traversal order, the align run of 1
bits, and the tree-shape string of length exactly `4·L − 4`. -/
theorem c7_header_layout (fs : List (Nat × Nat)) (hnd : (fs.map Prod.fst).Nodup)
    (hlt : ∀ p ∈ fs, p.1 < 256) (h2 : 2 ≤ fs.length) :
    ∃ root, huffmanInit fs = some root ∧
      hfSerialize fs.length root =
        int_to_bits (fs.length - 1) 8
          ++ ((travItems root []).map (fun x => int_to_bits x.1 8)).flatten
          ++ List.replicate (hfAlign root) true
          ++ (hfTraverse root []).tree_bits ∧
      (int_to_bits (fs.length - 1) 8).length = 8 ∧
      ((travItems root []).map (fun x => int_to_bits x.1 8)).flatten.length
        = 8 * fs.length ∧
      (travItems root []).map (fun x => (x.1, x.2.1)) = leafItems root ∧
      (leafItems root).Perm fs ∧
      (hfTraverse root []).tree_bits.length = 4 * fs.length - 4 := by
  obtain ⟨root, hinit, hperm, hwf, hinner⟩ := huffmanInit_spec fs (by omega)
  have hL : (leafItems root).length = fs.length := hperm.length_eq
  have hitems_len : (travItems root []).length = (leafItems root).length := by
    rw [← travItems_leafItems root []]
    simp
  have hkeys_lt : ∀ x ∈ travItems root [], x.1 < 256 := by
    intro x hx
    have h1 : (x.1, x.2.1) ∈ leafItems root := by
      rw [← travItems_leafItems root []]
      exact List.mem_map_of_mem _ hx
    have h2 := hperm.mem_iff.mp h1
    exact hlt _ h2
  have hL256 : fs.length ≤ 256 := by
    have h1 : (fs.map Prod.fst).toFinset.card = (fs.map Prod.fst).length :=
      List.toFinset_card_of_nodup hnd
    have h2 : (fs.map Prod.fst).toFinset ⊆ Finset.range 256 := by
      intro x hx
      rw [List.mem_toFinset] at hx
      obtain ⟨p, hp, rfl⟩ := List.mem_map.mp hx
      simpa using hlt p hp
    have h3 := Finset.card_le_card h2
    rw [h1, Finset.card_range, List.length_map] at h3
    exact h3
  refine ⟨root, hinit, ?_, ?_, ?_, travItems_leafItems root [], hperm, ?_⟩
  · unfold hfSerialize
    dsimp only
    rw [travItems_headerAdds]
  · rw [int_to_bits_eq_fixedBits _ 8 (by omega) (by omega), length_fixedBits]
  · rw [show ((travItems root []).map (fun x => int_to_bits x.1 8)).flatten
      = (hfTraverse root []).headerAdds.flatten from by rw [travItems_headerAdds]]
    rw [headerAdds_flatten_len root hkeys_lt, hitems_len, hL]
  · rw [tree_bits_length, hL]

/-- Closed instance of `c7_header_layout` on the map `{97 ↦ 1, 98 ↦ 1}`. -/
theorem c7_header_layout_witness :
    ∃ root, huffmanInit [(97, 1), (98, 1)] = some root ∧
      (hfTraverse root []).tree_bits.length = 4 * 2 - 4 := by
  obtain ⟨root, hinit, _, _, _, _, _, hlen⟩ :=
    c7_header_layout [(97, 1), (98, 1)] (by decide) (by decide) (by decide)
  exact ⟨root, hinit, hlen⟩

/-- C8: for every input with at least two distinct byte symbols the total bit
stream is byte-aligned — its length is a multiple of 8, hence the part after
the first byte is too — and the emitted bytes carry all appended bits: no
residue is dropped at end of stream. -/
theorem c8_alignment_invariant (xs : List Nat) (hb : ∀ x ∈ xs, x < 256)
    (h2 : 2 ≤ (counterItems xs).length) :
    ∃ root E out,
      huffmanInit (counterItems xs) = some root ∧
      encode xs (hfBytesCodes root) = some E ∧
      compress xs = some out ∧
      (hfSerialize (counterItems xs).length root ++ E).length % 8 = 0 ∧
      ((hfSerialize (counterItems xs).length root ++ E).length - 8) % 8 = 0 ∧
      8 * out.length = (hfSerialize (counterItems xs).length root ++ E).length := by
  obtain ⟨root, E, hinit, hperm, hwf, hinner, hdict, hnd, hE, hElen, hcomp, hser, hmod⟩ :=
    compress_structure xs hb h2
  refine ⟨root, E, _, hinit, hE, hcomp, hmod, ?_, ?_⟩
  · omega
  · rw [create_bytes_full _ hmod]
    rw [natToBytesBE_length]
    omega

/-- Closed instance of `c8_alignment_invariant` at input `61 62`. -/
theorem c8_alignment_invariant_witness :
    ∃ root E out,
      huffmanInit (counterItems [97, 98]) = some root ∧
      encode [97, 98] (hfBytesCodes root) = some E ∧
      compress [97, 98] = some out ∧
      (hfSerialize (counterItems [97, 98]).length root ++ E).length % 8 = 0 ∧
      ((hfSerialize (counterItems [97, 98]).length root ++ E).length - 8) % 8 = 0 ∧
      8 * out.length = (hfSerialize (counterItems [97, 98]).length root ++ E).length :=
  c8_alignment_invariant [97, 98] (by decide) (by decide)

/-- C9: for every frequency map with at least two distinct symbols, every
code in the produced codebook is non-empty, and no code is a prefix of a
different symbol's code. -/
theorem c9_prefix_freedom (fs : List (Nat × Nat)) (hnd : (fs.map Prod.fst).Nodup)
    (h2 : 2 ≤ fs.length) :
    ∃ root, huffmanInit fs = some root ∧
      (∀ p ∈ hfBytesCodes root, p.2 ≠ []) ∧
      (∀ p ∈ hfBytesCodes root, ∀ q ∈ hfBytesCodes root, p ≠ q → ¬ p.2 <+: q.2) := by
  obtain ⟨root, hinit, hperm, hwf, hinner⟩ := huffmanInit_spec fs (by omega)
  have hroot_inner := hinner h2
  have hkeys_eq : (travItems root []).map Prod.fst = (leafItems root).map Prod.fst := by
    rw [← travItems_leafItems root []]
    simp
  have hkeys_nodup : ((travItems root []).map Prod.fst).Nodup := by
    rw [hkeys_eq]
    exact ((hperm.map Prod.fst).nodup_iff).mpr hnd
  have hdict : hfBytesCodes root = (travItems root []).map (fun x => (x.1, x.2.2)) := by
    unfold hfBytesCodes
    rw [travItems_codeAdds]
    refine pyDictOfList_nodup _ ?_
    have he : ((travItems root []).map (fun x => (x.1, x.2.2))).map Prod.fst
        = (travItems root []).map Prod.fst := by simp
    rw [he]
    exact hkeys_nodup
  refine ⟨root, hinit, ?_, ?_⟩
  · intro p hp
    rw [hdict] at hp
    obtain ⟨x, hx, rfl⟩ := List.mem_map.mp hp
    show x.2.2 ≠ []
    cases root with
    | leaf b f => exact absurd hroot_inner (by simp [isInnerNode])
    | inner b f l r => exact travItems_path_nonempty b f l r x hx
  · intro p hp q hq hne
    rw [hdict] at hp hq
    have hpw : ((travItems root []).map (fun x => (x.1, x.2.2))).Pairwise
        (fun a b => ¬ a.2 <+: b.2 ∧ ¬ b.2 <+: a.2) := by
      refine List.Pairwise.map _ ?_ (travItems_pairwise root [])
      intro a b hab
      exact hab
    have hsymm : Symmetric (fun (a b : Nat × Bits) => ¬ a.2 <+: b.2 ∧ ¬ b.2 <+: a.2) := by
      intro a b hab
      exact ⟨hab.2, hab.1⟩
    exact ((List.Pairwise.forall hsymm hpw) hp hq hne).1

/-- Closed instance of `c9_prefix_freedom` on the map of input `61 61 62 63`. -/
theorem c9_prefix_freedom_witness :
    ∃ root, huffmanInit [(97, 2), (98, 1), (99, 1)] = some root ∧
      (∀ p ∈ hfBytesCodes root, p.2 ≠ []) ∧
      (∀ p ∈ hfBytesCodes root, ∀ q ∈ hfBytesCodes root, p ≠ q → ¬ p.2 <+: q.2) :=
  c9_prefix_freedom [(97, 2), (98, 1), (99, 1)] (by decide) (by decide)

/-! ## Claim theorems: concrete evaluations -/

set_option maxRecDepth 8000 in
/-- C3: encoding the two-byte input `61 62` produces exactly the bytes
`01 61 62 D5`, and encoding the seven-byte input `61 62 63 64 65 66 FF`
produces exactly `06 FF 61 62 63 64 65 66 F2 5C 59 74 E5 DC`. -/
theorem c3_bit_exact_vectors :
    compress [0x61, 0x62] = some [0x01, 0x61, 0x62, 0xD5] ∧
    compress [0x61, 0x62, 0x63, 0x64, 0x65, 0x66, 0xFF] =
      some [0x06, 0xFF, 0x61, 0x62, 0x63, 0x64, 0x65, 0x66, 0xF2, 0x5C, 0x59, 0x74, 0xE5, 0xDC] := by
  decide

set_option maxRecDepth 8000 in
/-- C2, counterexample.  On the frequency map `{2: 2, 1: 1, 5: 1}` (the
Counter of input `02 02 01 05`) the construction first merges the leaves 1
and 5 into an internal node whose stored key is the integer sum 6; at the
tie `freq 2 = freq 2` the code orders the leaf 2 before that internal node
(`2 < 6` as integers), so the built tree lists its leaves as `[2, 1, 5]`.
Under the claimed ordering, the internal node's key `[1, 5]` compares
lexicographically below `[2]`, so the internal node would come first and the
leaves would read `[1, 5, 2]`.  The compressed output exposes the
difference in its symbol-list bytes. -/
theorem c2_counterexample :
    (huffmanInit [(2, 2), (1, 1), (5, 1)]).map nodeLeaves = some [2, 1, 5] ∧
    (specHuffman [(2, 2), (1, 1), (5, 1)]).map specLeaves = some [1, 5, 2] ∧
    nodeLt (Node.leaf 2 2) (Node.inner 6 2 (Node.leaf 1 1) (Node.leaf 5 1)) = true ∧
    specLt (SNode.inner [1, 5] 2 (SNode.leaf 1 1) (SNode.leaf 5 1)) (SNode.leaf 2 2) = true ∧
    counterItems [2, 2, 1, 5] = [(2, 2), (1, 1), (5, 1)] ∧
    compress [2, 2, 1, 5] = some [2, 2, 1, 5, 0xD2, 0xCB] := by
  decide

set_option maxRecDepth 8000 in
/-- C10, counterexample.  The input `01 02 03 03 04 05` has frequency items
`[(1,1), (2,1), (3,2), (4,1), (5,1)]`; feeding a permutation of those items
to the tree construction changes the compressed bytes (the leaf 3 and the
internal node over 1 and 2 compare equal, so the heap layout, which depends
on the insertion order, decides their order). -/
theorem c10_counterexample :
    counterItems [1, 2, 3, 3, 4, 5] = [(1, 1), (2, 1), (3, 2), (4, 1), (5, 1)] ∧
    List.Perm [(1, 1), (2, 1), (3, 2), (4, 1), (5, 1)]
      [(1, 1), (2, 1), (5, 1), (3, 2), (4, 1)] ∧
    compressWithFreqs [(1, 1), (2, 1), (3, 2), (4, 1), (5, 1)] [1, 2, 3, 3, 4, 5] =
      some [4, 4, 5, 1, 2, 3, 203, 22, 229, 241] ∧
    compressWithFreqs [(1, 1), (2, 1), (5, 1), (3, 2), (4, 1)] [1, 2, 3, 3, 4, 5] =
      some [4, 4, 5, 3, 1, 2, 203, 37, 247, 161] := by
  decide

set_option maxRecDepth 8000 in
/-- C6, counterexample.  The stream `02 63 61 62 E9 77` declares the codes
`0 ↦ 63`, `10 ↦ 61`, `11 ↦ 62` and carries the payload bits `10111`: at
end-of-stream the carried residue is the non-empty bit string `10111`,
which matches no code, yet the decoder does not fail — it greedily decodes
`10`, `11` and silently discards the trailing `1`, returning `61 62`. -/
theorem c6_counterexample :
    decompress [2, 99, 97, 98, 233, 119] = some [97, 98] ∧
    decompressResidue [2, 99, 97, 98, 233, 119] =
      some ([true, false, true, true, true],
        [([false], 99), ([true, false], 97), ([true, true], 98)]) ∧
    pyDictLookup [([false], 99), ([true, false], 97), ([true, true], 98)]
      [true, false, true, true, true] = none := by
  decide

/-- C2, amended: nodes compare first by frequency ascending, then by a
secondary key compared as integers; a leaf's key is its symbol value and an
internal node's key is the integer sum `left.key + right.key` fixed when the
node is created, and every tree built by `HuffmanTree.__init__` carries such
sum keys. -/
theorem c2_tie_break_integer_sum_key (fs : List (Nat × Nat)) (h1 : 1 ≤ fs.length) :
    (∀ a b : Node, nodeLt a b = true ↔
      (a.freq < b.freq ∨ (a.freq = b.freq ∧ a.byte < b.byte))) ∧
    ∃ root, huffmanInit fs = some root ∧ wfKey root := by
  constructor
  · intro a b
    unfold nodeLt
    simp only [Bool.or_eq_true, Bool.and_eq_true, decide_eq_true_eq, beq_iff_eq]
  · obtain ⟨root, hinit, _, hwf, _⟩ := huffmanInit_spec fs h1
    exact ⟨root, hinit, hwf⟩

/-- Closed instance of `c2_tie_break_integer_sum_key` on a two-entry map. -/
theorem c2_tie_break_integer_sum_key_witness :
    (∀ a b : Node, nodeLt a b = true ↔
      (a.freq < b.freq ∨ (a.freq = b.freq ∧ a.byte < b.byte))) ∧
    ∃ root, huffmanInit [(97, 2), (98, 1)] = some root ∧ wfKey root :=
  c2_tie_break_integer_sum_key [(97, 2), (98, 1)] (by decide)

/-- C6, amended: once the header has parsed, the decoder never fails at
end-of-stream.  It runs one final greedy decode of the carried residue,
emits the symbols of whatever codes match, and silently discards the
remaining non-matching bits: the result is `some`, never an exception. -/
theorem c6_residue_silently_dropped (b0 : Nat) (tl : List Nat) (hb0 : ¬ b0 = 0)
    (d : List (Bits × Nat)) (restBits : Bits) (rest2 : List Nat)
    (hsetup : decompSetup (b0 + 1) tl = some (d, restBits, rest2)) :
    decompress (b0 :: tl)
      = some ((decompLoop d restBits (chunksOf default_size rest2)).1
          ++ (if (decompLoop d restBits (chunksOf default_size rest2)).2.isEmpty
              then []
              else (decode (decompLoop d restBits (chunksOf default_size rest2)).2 d).1)) := by
  rw [decompress_cons b0 tl hb0, hsetup]
  dsimp only
  by_cases h : (decompLoop d restBits (chunksOf default_size rest2)).2.isEmpty
  · rw [if_pos h, if_pos h]
    simp
  · rw [if_neg h, if_neg h]

/-- Closed instance of `c6_residue_silently_dropped` on the stream `01 61 62 D5`. -/
theorem c6_residue_silently_dropped_witness :
    decompress [1, 97, 98, 213]
      = some ((decompLoop [([false], 97), ([true], 98)] [false, true]
            (chunksOf default_size [])).1
          ++ (if (decompLoop [([false], 97), ([true], 98)] [false, true]
                (chunksOf default_size [])).2.isEmpty
              then []
              else (decode (decompLoop [([false], 97), ([true], 98)] [false, true]
                (chunksOf default_size [])).2 [([false], 97), ([true], 98)]).1)) :=
  c6_residue_silently_dropped 1 [97, 98, 213] (by decide)
    [([false], 97), ([true], 98)] [false, true] [] (by decide)

/-- C10, amended: the output is a function of the ordered frequency items (a
permutation can change it, see the counterexample), but for a map of two
distinct symbols, permuting the two items yields identical compressed
output. -/
theorem c10_two_symbol_permutation (x1 f1 x2 f2 : Nat) (hne : x1 ≠ x2)
    (xs : List Nat) :
    compressWithFreqs [(x1, f1), (x2, f2)] xs
      = compressWithFreqs [(x2, f2), (x1, f1)] xs := by
  have hinit : huffmanInit [(x1, f1), (x2, f2)] = huffmanInit [(x2, f2), (x1, f1)] := by
    rw [huffmanInit_pair, huffmanInit_pair]
    rcases nodeLt_total_of_ne (Node.leaf x1 f1) (Node.leaf x2 f2) (by simpa using hne)
      with h | h
    · rw [if_pos h, if_neg (by simp [nodeLt_asymm _ _ h])]
    · rw [if_pos h, if_neg (by simp [nodeLt_asymm _ _ h])]
  unfold compressWithFreqs
  rw [show ([(x1, f1), (x2, f2)] : List (Nat × Nat)).length = 2 from rfl,
    show ([(x2, f2), (x1, f1)] : List (Nat × Nat)).length = 2 from rfl]
  rw [if_neg (by omega), if_neg (by omega), hinit]

/-- Closed instance of `c10_two_symbol_permutation` on the map of `61 61 62`. -/
theorem c10_two_symbol_permutation_witness :
    compressWithFreqs [(97, 2), (98, 1)] [97, 97, 98]
      = compressWithFreqs [(98, 1), (97, 2)] [97, 97, 98] :=
  c10_two_symbol_permutation 97 2 98 1 (by decide) [97, 97, 98]

end Huff
